import Mathlib

/-!
Verification of the NFT-marketplace chatbot core (shallow embedding).

Source of truth: `src/nft_chatbot/services/chat_service.py` and
`src/nft_chatbot/db/repository.py`.  Text is modelled as `List Char`;
Python regular-expression operations over the fixed marker patterns are
modelled by executable scanning functions below.  Character classes
(`\s`, `\w`, case folding) are modelled over ASCII, which covers every
character occurring in the fixed patterns of the source.  `json.loads`
combined with the `isinstance(payload, dict)` check is modelled by an
abstract decoder `dec : List Char → Option (Dict V)` (`none` covers both
a decode failure and a non-object result), since the JSON library is an
external collaborator of this component.
-/

namespace NftChatbot

/-- Python whitespace for `str.strip` and `\s` (ASCII fragment). -/
def isPyWs (c : Char) : Bool :=
  c == ' ' || c == '\t' || c == '\n' || c == '\r' || c == '\x0b' || c == '\x0c'

/-- `str.lstrip()` on a character list. -/
def trimLeft (s : List Char) : List Char := s.dropWhile isPyWs

/-- `str.rstrip()` on a character list, recursively. -/
def trimRight : List Char → List Char
  | [] => []
  | c :: cs =>
    match trimRight cs with
    | [] => if isPyWs c then [] else [c]
    | r => c :: r

/-- Python `str.strip()`. -/
def pyStrip (s : List Char) : List Char := trimLeft (trimRight s)

/-- Case-insensitive character comparison (`re.IGNORECASE`, ASCII). -/
def ciEq (a b : Char) : Bool := a.toLower == b.toLower

/-- Case-sensitive character comparison (default `re` matching). -/
def csEq (a b : Char) : Bool := a == b

/-- Does the pattern `t` match at the head of `s`, character-wise by `eq`
(pattern character first)? -/
def isPrefixBy (eq : Char → Char → Bool) : List Char → List Char → Bool
  | [], _ => true
  | _ :: _, [] => false
  | a :: as, b :: bs => eq a b && isPrefixBy eq as bs

/-- Index of the first position of `s` where `t` matches (regex `search`). -/
def findIdxBy (eq : Char → Char → Bool) (t : List Char) : List Char → Option Nat
  | [] => if isPrefixBy eq t [] then some 0 else none
  | c :: cs =>
    if isPrefixBy eq t (c :: cs) then some 0
    else (findIdxBy eq t cs).map (· + 1)

/-- Does `t` occur anywhere in `s` (under `eq`)? -/
def containsBy (eq : Char → Char → Bool) (t : List Char) : List Char → Bool
  | [] => isPrefixBy eq t []
  | c :: cs => isPrefixBy eq t (c :: cs) || containsBy eq t cs

/-- Character-wise equality of two lists under `eq` (same length required). -/
def eqListBy (eq : Char → Char → Bool) : List Char → List Char → Bool
  | [], [] => true
  | a :: as, b :: bs => eq a b && eqListBy eq as bs
  | _, _ => false

theorem isPrefixBy_length {eq : Char → Char → Bool} :
    ∀ {t s : List Char}, isPrefixBy eq t s = true → t.length ≤ s.length := by
  intro t
  induction t with
  | nil => intro s _; exact Nat.zero_le _
  | cons a as ih =>
    intro s h
    cases s with
    | nil => simp [isPrefixBy] at h
    | cons b bs =>
      simp only [isPrefixBy, Bool.and_eq_true] at h
      simpa [List.length_cons, Nat.succ_le_succ_iff] using ih h.2

/-! ### Generic scanning for the marker patterns

Each marker pattern of `chat_service.py` has the shape
`open .*? close` (`re.DOTALL`), scanned left to right (`finditer` /
`sub`).  At a match position the non-greedy `.*?` selects the nearest
following close tag; scanning resumes after the consumed span.  When an
open tag has no close tag anywhere after it, the pattern cannot match at
that or any later position.  The `openT = []` guards below are
unreachable (all tags are non-empty literals) and exist only to make the
recursions total. -/

/-- The list of captured groups of `pattern.finditer(s)` for an
`open(.*?)close` pattern, in document order. -/
def capturesBy (eq : Char → Char → Bool) (openT closeT : List Char) :
    List Char → List (List Char)
  | [] => []
  | ch :: cs =>
    if h0 : openT = [] then []
    else if isPrefixBy eq openT (ch :: cs) then
      match findIdxBy eq closeT ((ch :: cs).drop openT.length) with
      | some k =>
        ((ch :: cs).drop openT.length).take k ::
          capturesBy eq openT closeT (((ch :: cs).drop openT.length).drop (k + closeT.length))
      | none => []
    else capturesBy eq openT closeT cs
termination_by s => s.length
decreasing_by
  · have h1 : 0 < openT.length := List.length_pos.mpr h0
    simp only [List.length_drop, List.length_cons]
    omega
  · simp

/-- A `Dict` models a Python `dict` as an ordered association list with
(at the call sites) pairwise-distinct keys. -/
abbrev Dict (V : Type) := List (String × V)

/-- Assigning one key in a Python dict: an existing key is updated in
place, a new key is appended. -/
def insertKV {V : Type} (d : Dict V) (k : String) (v : V) : Dict V :=
  if d.any (fun kv => kv.1 == k) then
    d.map (fun kv => if kv.1 == k then (k, v) else kv)
  else d ++ [(k, v)]

/-- Python `d.update(u)`: iterate the items of `u` in order. -/
def dictUpdate {V : Type} (d : Dict V) : Dict V → Dict V
  | [] => d
  | kv :: rest => dictUpdate (insertKV d kv.1 kv.2) rest

/-- Python `d.get(k)` (first binding; call sites keep keys distinct). -/
def getVal {V : Type} (d : Dict V) (k : String) : Option V :=
  (d.find? (fun kv => kv.1 == k)).map (·.2)

/-- The extraction loop of the `_extract_and_strip_*` functions: scan for
pattern matches and fold every successfully decoded object payload into
the accumulator (`updates.update(payload)`); decode failures and
non-object payloads (`dec _ = none`) are skipped. -/
def scanPayload {V : Type} (eq : Char → Char → Bool) (openT closeT : List Char)
    (dec : List Char → Option (Dict V)) (acc : Dict V) : List Char → Dict V
  | [] => acc
  | ch :: cs =>
    if h0 : openT = [] then acc
    else if isPrefixBy eq openT (ch :: cs) then
      match findIdxBy eq closeT ((ch :: cs).drop openT.length) with
      | some k =>
        scanPayload eq openT closeT dec
          (match dec (pyStrip (((ch :: cs).drop openT.length).take k)) with
           | some d => dictUpdate acc d
           | none => acc)
          (((ch :: cs).drop openT.length).drop (k + closeT.length))
      | none => acc
    else scanPayload eq openT closeT dec acc cs
termination_by s => s.length
decreasing_by
  · have h1 : 0 < openT.length := List.length_pos.mpr h0
    simp only [List.length_drop, List.length_cons]
    omega
  · simp

/-- One `pattern.sub("", s)` pass for an `open.*?close` strip pattern:
remove every non-overlapping match, left to right. -/
def stripClosedOnce (eq : Char → Char → Bool) (openT closeT : List Char) :
    List Char → List Char
  | [] => []
  | ch :: cs =>
    if h0 : openT = [] then ch :: cs
    else if isPrefixBy eq openT (ch :: cs) then
      match findIdxBy eq closeT ((ch :: cs).drop openT.length) with
      | some k =>
        stripClosedOnce eq openT closeT (((ch :: cs).drop openT.length).drop (k + closeT.length))
      | none => ch :: cs
    else ch :: stripClosedOnce eq openT closeT cs
termination_by s => s.length
decreasing_by
  · have h1 : 0 < openT.length := List.length_pos.mpr h0
    simp only [List.length_drop, List.length_cons]
    omega
  · simp

/-- `while pattern.search(s): s = pattern.sub("", s)` — repeat the
one-pass substitution until it no longer shrinks the text (a pass that
finds a match always shrinks; a pass that finds none is the identity). -/
def stripClosedAll (eq : Char → Char → Bool) (openT closeT : List Char)
    (s : List Char) : List Char :=
  let s' := stripClosedOnce eq openT closeT s
  if h : s'.length < s.length then stripClosedAll eq openT closeT s' else s'
termination_by s.length

/-- `orphan_pattern.sub("", s)` for an `open.*$` (DOTALL) pattern: cut
from the first occurrence of the open tag to the end of the text. -/
def stripOrphan (eq : Char → Char → Bool) (openT : List Char)
    (s : List Char) : List Char :=
  match findIdxBy eq openT s with
  | some i => s.take i
  | none => s

/-! ### The marker tags of `chat_service.py` -/

def sessionOpen : List Char := "[SESSION_DATA]".data
def sessionClose : List Char := "[/SESSION_DATA]".data
def storePersonalOpen : List Char := "[STORE_PERSONAL]".data
def storePersonalClose : List Char := "[/STORE_PERSONAL]".data
def storePreferenceOpen : List Char := "[STORE_PREFERENCE]".data
def storePreferenceClose : List Char := "[/STORE_PREFERENCE]".data

/-! ### The three extractors

`SESSION_DATA_PATTERN` and both SESSION_DATA strip patterns carry
`re.IGNORECASE`; `STORE_PERSONAL_PATTERN` and `STORE_PREFERENCE_PATTERN`
carry only `re.DOTALL` (case-sensitive), while their strip patterns are
case-insensitive.  Only the SESSION_DATA extractor runs the iterated
closed-pair strip and the orphan strip; the other two run a single
closed-pair pass. -/

/-- `_extract_and_strip_session_data` of `chat_service.py`. -/
def extract_and_strip_session_data {V : Type} (dec : List Char → Option (Dict V))
    (raw : List Char) : Dict V × List Char :=
  ( scanPayload ciEq sessionOpen sessionClose dec [] raw,
    pyStrip (stripOrphan ciEq sessionOpen
      (stripClosedAll ciEq sessionOpen sessionClose raw)) )

/-- `_extract_and_strip_store_personal` of `chat_service.py`. -/
def extract_and_strip_store_personal {V : Type} (dec : List Char → Option (Dict V))
    (raw : List Char) : Dict V × List Char :=
  ( scanPayload csEq storePersonalOpen storePersonalClose dec [] raw,
    pyStrip (stripClosedOnce ciEq storePersonalOpen storePersonalClose raw) )

/-- `_extract_and_strip_store_preference` of `chat_service.py`. -/
def extract_and_strip_store_preference {V : Type} (dec : List Char → Option (Dict V))
    (raw : List Char) : Dict V × List Char :=
  ( scanPayload csEq storePreferenceOpen storePreferenceClose dec [] raw,
    pyStrip (stripClosedOnce ciEq storePreferenceOpen storePreferenceClose raw) )

/-! ### The user-facing sanitizer -/

/-- Python `s.split("\n")`. -/
def splitOnNl : List Char → List (List Char)
  | [] => [[]]
  | c :: cs =>
    if c = '\n' then [] :: splitOnNl cs
    else
      match splitOnNl cs with
      | [] => [[c]]
      | l :: ls => (c :: l) :: ls

/-- Python `"\n".join(ls)`. -/
def joinNl : List (List Char) → List Char
  | [] => []
  | [l] => l
  | l :: l' :: ls => l ++ '\n' :: joinNl (l' :: ls)

/-- `re.match(r"^\[/?TAG\]$", s, re.I)` for the three marker names:
`s` is exactly one of the six tag literals, case-insensitively. -/
def tagOnlyLine (s : List Char) : Bool :=
  eqListBy ciEq sessionOpen s || eqListBy ciEq sessionClose s ||
  eqListBy ciEq storePersonalOpen s || eqListBy ciEq storePersonalClose s ||
  eqListBy ciEq storePreferenceOpen s || eqListBy ciEq storePreferenceClose s

/-- `_sanitize_response_for_user` of `chat_service.py`. -/
def sanitize_response_for_user (text : List Char) : List Char :=
  if text = [] then text
  else if pyStrip text = [] then text
  else
    let t1 := stripClosedAll ciEq sessionOpen sessionClose text
    let t2 := stripClosedAll ciEq storePersonalOpen storePersonalClose t1
    let t3 := stripClosedAll ciEq storePreferenceOpen storePreferenceClose t2
    let t4 := stripOrphan ciEq sessionOpen t3
    let t5 := stripOrphan ciEq storePersonalOpen t4
    let t6 := stripOrphan ciEq storePreferenceOpen t5
    let kept := (splitOnNl t6).filter (fun l => !(tagOnlyLine (pyStrip l)))
    pyStrip (joinNl kept)

/-! ### Repository model (`db/repository.py`)

Sessions and memories are modelled as lists of records in insertion
order.  `datetime.utcnow()` is passed in as an abstract timestamp `now`.
`scalar_one_or_none` is modelled as first-match lookup; the call sites
keep ids unique (sessions) and at most one memory per `(user_id, key)`,
which the relevant theorems state as hypotheses.  `Memory.confidence` is
a stored-and-copied float on which no arithmetic is performed; it is
modelled by `ℚ` (Python default `1.0` ↦ `1`). -/

structure SessionRec (V : Type) where
  id : String
  userId : String
  /-- The JSON `state` blob (`session.state or {}` reads `None` as `{}`,
  so the model folds both into the empty dict). -/
  state : Dict V
  updatedAt : Nat
deriving DecidableEq

structure MemoryRec where
  userId : String
  memoryType : String
  key : String
  value : String
  confidence : ℚ
  updatedAt : Nat
deriving DecidableEq

/-- Update the first record satisfying `p` (the single row returned by
`scalar_one_or_none` under the uniqueness invariant). -/
def updateFirst {α : Type} (p : α → Bool) (f : α → α) : List α → List α
  | [] => []
  | x :: xs => if p x then f x :: xs else x :: updateFirst p f xs

/-- `ChatRepository.get_session`. -/
def get_session {V : Type} (sessions : List (SessionRec V)) (sid : String) :
    Option (SessionRec V) :=
  sessions.find? (fun s => s.id == sid)

/-- `ChatRepository.update_session_state`: look the session up; when it
exists, shallow-merge the update into its state, set `updated_at` to the
current time and commit; when it does not exist, do nothing. -/
def update_session_state {V : Type} (sessions : List (SessionRec V))
    (sid : String) (state : Dict V) (now : Nat) : List (SessionRec V) :=
  match get_session sessions sid with
  | none => sessions
  | some _ =>
    updateFirst (fun s => s.id == sid)
      (fun s => { s with state := dictUpdate s.state state, updatedAt := now })
      sessions

/-- Step 7 of `ChatService.process_message`: the extracted state update
is merged only when it is non-empty (`if state_updates:`). -/
def process_message_state_merge {V : Type} (sessions : List (SessionRec V))
    (sid : String) (state_updates : Dict V) (now : Nat) : List (SessionRec V) :=
  if state_updates.isEmpty then sessions
  else update_session_state sessions sid state_updates now

/-- `ChatRepository.upsert_memory`: the existing record is looked up by
`(user_id, key)` only; when present, its `value`, `confidence` and
`updated_at` are overwritten; otherwise a new record carrying
`memory_type` is appended. -/
def upsert_memory (memories : List MemoryRec) (uid mtype key value : String)
    (confidence : ℚ) (now : Nat) : List MemoryRec :=
  match memories.find? (fun m => m.userId == uid && m.key == key) with
  | some _ =>
    updateFirst (fun m => m.userId == uid && m.key == key)
      (fun m => { m with value := value, confidence := confidence, updatedAt := now })
      memories
  | none =>
    memories ++ [{ userId := uid, memoryType := mtype, key := key,
                   value := value, confidence := confidence, updatedAt := now }]

/-- `ChatRepository.delete_memories_by_type`: remove every memory of the
given user and type; returns the new table and the deleted count. -/
def delete_memories_by_type (memories : List MemoryRec) (uid mtype : String) :
    List MemoryRec × Nat :=
  ( memories.filter (fun m => !(m.userId == uid && m.memoryType == mtype)),
    (memories.filter (fun m => m.userId == uid && m.memoryType == mtype)).length )

/-! ### History compaction (`_build_blocks_json_for_storage`)

The per-kind summary strings (`_nft_list_summary()`,
`_collection_list_summary()`, `_detail_summary_text()`) are pure
functions of `state_updates`; the builder consults each one at most
once, so they are passed here as already-computed strings `nftS`,
`collS`, `detS`.  The source serializes the resulting block list with
`json.dumps`; the claims are about the list, which is what the model
returns. -/

structure ContentBlock where
  type : String
  markdown : Option String
  html : Option String
  template : Option String
deriving DecidableEq

/-- Python truthiness of the `template` field (`None` and `""` are falsy). -/
def templateTruthy (b : ContentBlock) : Bool :=
  match b.template with
  | none => false
  | some t => t ≠ ""

/-- `(b.markdown or "").strip()`. -/
def markdownStripped (b : ContentBlock) : List Char :=
  pyStrip (match b.markdown with | none => [] | some m => m.data)

/-- One stored block: `(markdown, html_tools_data)`. -/
abbrev StoredBlock := List Char × String

/-- The loop of `_build_blocks_json_for_storage`, carrying the three
used-flags (`nft_used`, `collection_used`, `detail_used`). -/
def buildBlocksLoop (nftS collS detS : String) :
    List ContentBlock → Bool → Bool → Bool → List StoredBlock
  | [], _, _, _ => []
  | b :: bs, nu, cu, du =>
    if b.type == "text" then
      (markdownStripped b, "") :: buildBlocksLoop nftS collS detS bs nu cu du
    else if b.type == "html_component" && templateTruthy b then
      let t := (b.template.getD "").toLower
      if t == "grid" || t == "table" then
        ([], if !nu then nftS else "") :: buildBlocksLoop nftS collS detS bs true cu du
      else if t == "collection_grid" || t == "collection_table" then
        ([], if !cu then collS else "") :: buildBlocksLoop nftS collS detS bs nu true du
      else if t == "details" then
        ([], if !du then detS else "") :: buildBlocksLoop nftS collS detS bs nu cu true
      else
        ([], "") :: buildBlocksLoop nftS collS detS bs nu cu du
    else
      (markdownStripped b, "") :: buildBlocksLoop nftS collS detS bs nu cu du

/-- `_build_blocks_json_for_storage` (block list before `json.dumps`). -/
def build_blocks_for_storage (blocks : List ContentBlock)
    (nftS collS detS : String) : List StoredBlock :=
  buildBlocksLoop nftS collS detS blocks false false false

/-- Is `b` an HTML component block of NFT-list kind? -/
def isNftKind (b : ContentBlock) : Bool :=
  b.type == "html_component" && templateTruthy b &&
    (let t := (b.template.getD "").toLower; t == "grid" || t == "table")

/-- Is `b` an HTML component block of collection-list kind? -/
def isCollectionKind (b : ContentBlock) : Bool :=
  b.type == "html_component" && templateTruthy b &&
    (let t := (b.template.getD "").toLower;
     t == "collection_grid" || t == "collection_table")

/-- Is `b` an HTML component block of detail kind? -/
def isDetailKind (b : ContentBlock) : Bool :=
  b.type == "html_component" && templateTruthy b &&
    ((b.template.getD "").toLower == "details")

/-- The `html_tools_data` entries of the output positions whose input
block satisfies `isK`, in order. -/
def projData (isK : ContentBlock → Bool) :
    List ContentBlock → List StoredBlock → List String
  | b :: bs, o :: os =>
    (if isK b then [o.2] else []) ++ projData isK bs os
  | _, _ => []

/-! ### Intent patterns (`DONT_REMEMBER_PERSONAL`, `REMEMBER_ASK_PATTERN`,
`NAME_PATTERNS`)

These fixed regular expressions are alternations of case-insensitive
word literals glued by `\s+`, optional `(word\s+)?` groups and `\b`
boundaries.  They are modelled by executable matchers: a literal
matches by `ciEq`; `\s+` is one-or-more `isPyWs` characters (maximal
munch is exact here because every following literal begins with a
non-whitespace character); optional groups are tried both ways; `\b` is
the ASCII word-boundary test.  `search` scans candidate start positions
left to right carrying the previous character for the leading `\b`. -/

/-- `\w` (ASCII fragment). -/
def isWordChar (c : Char) : Bool := c.isAlpha || c.isDigit || c == '_'

def lowerL (s : List Char) : List Char := s.map Char.toLower

/-- Match the literal `w` case-insensitively at the head of `s`,
returning the remainder. -/
def litCI (w s : List Char) : Option (List Char) :=
  if isPrefixBy ciEq w s then some (s.drop w.length) else none

/-- `\s+`: require at least one whitespace character, consume the run. -/
def munchWs1 : List Char → Option (List Char)
  | [] => none
  | c :: cs => if isPyWs c then some (cs.dropWhile isPyWs) else none

/-- A sequence of literals joined by `\s+` (e.g. `that\s+i\s+prefer`). -/
def litSeqCI : List (List Char) → List Char → Option (List Char)
  | [], s => some s
  | [w], s => litCI w s
  | w :: w' :: ws, s =>
    (litCI w s).bind fun r => (munchWs1 r).bind (litSeqCI (w' :: ws))

/-- `\b` before a word character, given the previous character. -/
def boundaryBefore : Option Char → Bool
  | none => true
  | some p => !isWordChar p

/-- `\b` after a word character: next is absent or a non-word char. -/
def boundaryAfterWord : List Char → Bool
  | [] => true
  | c :: _ => !isWordChar c

/-- `\b` after a non-word character: next must be a word char. -/
def wordStart : List Char → Bool
  | [] => false
  | c :: _ => isWordChar c

/-- Finish with one of the single-word alternatives plus trailing `\b`. -/
def tryTailB (alts : List (List Char)) (t : List Char) : Bool :=
  alts.any fun b =>
    match litCI b t with
    | some r => boundaryAfterWord r
    | none => false

/-- Finish with one of the multi-word alternatives plus trailing `\b`. -/
def tryTailSeq (seqs : List (List (List Char))) (t : List Char) : Bool :=
  seqs.any fun ws =>
    match litSeqCI ws t with
    | some r => boundaryAfterWord r
    | none => false

/-- Expand the optional group `(w\s+)?` over a set of scan states. -/
def optWordWs (w : String) (states : List (List Char)) : List (List Char) :=
  states ++ states.filterMap (fun s => (litCI w.data s).bind munchWs1)

/-- Generic `pattern.search`: try every start position. -/
def searchFrom (tryAt : Option Char → List Char → Bool) :
    Option Char → List Char → Bool
  | prev, [] => tryAt prev []
  | prev, c :: cs => tryAt prev (c :: cs) || searchFrom tryAt (some c) cs

def forgetAltsA : List (List Char) :=
  ["don\x27t remember", "do not remember", "forget", "don\x27t store",
   "do not store", "remove", "delete"].map String.data

def forgetAltsB : List (List Char) :=
  ["name", "details", "detail", "personal", "info", "information"].map String.data

/-- One candidate position of `DONT_REMEMBER_PERSONAL`. -/
def dontRememberAt (prev : Option Char) (s : List Char) : Bool :=
  boundaryBefore prev &&
  forgetAltsA.any fun a =>
    match (litCI a s).bind munchWs1 with
    | some r => (optWordWs "my" [r]).any (tryTailB forgetAltsB)
    | none => false

/-- `DONT_REMEMBER_PERSONAL.search(msg)` of `chat_service.py`. -/
def dontRememberPersonalSearch (s : List Char) : Bool :=
  searchFrom dontRememberAt none s

def rememberVerbs1 : List (List Char) :=
  ["remember", "save", "store", "keep", "share", "sharing"].map String.data

def prefSimple1 : List (List Char) :=
  ["preference", "preferences", "choice", "choices"].map String.data

def prefCompound1 : List (List (List Char)) :=
  [["that", "i", "prefer"], ["that", "i", "like"],
   ["i", "prefer"], ["i", "like"]].map (List.map String.data)

/-- First branch of `REMEMBER_ASK_PATTERN`. -/
def rememberAt1 (prev : Option Char) (s : List Char) : Bool :=
  boundaryBefore prev &&
  rememberVerbs1.any fun a =>
    match (litCI a s).bind munchWs1 with
    | some r =>
      let states := optWordWs "this" (optWordWs "my" (optWordWs "that" [r]))
      states.any fun t => tryTailB prefSimple1 t || tryTailSeq prefCompound1 t
    | none => false

/-- Second branch of `REMEMBER_ASK_PATTERN` (`this\s+is|that'?s?`). -/
def rememberAt2 (prev : Option Char) (s : List Char) : Bool :=
  boundaryBefore prev &&
  (let g1 : List (List Char) :=
     (match litSeqCI (["this", "is"].map String.data) s with
      | some r => [r] | none => []) ++
     (["that\x27s", "thats", "that\x27", "that"].map String.data).filterMap
       (fun w => litCI w s)
   g1.any fun r0 =>
     match munchWs1 r0 with
     | some r => (optWordWs "my" [r]).any
         (tryTailB (["preference", "choice"].map String.data))
     | none => false)

/-- Third branch of `REMEMBER_ASK_PATTERN`
(`(want\s+to|would\s+like\s+to|please)\s+(remember|save|store|keep)\s+(my\s+)?(preference|choice|that\s+i\s+prefer)?\b`). -/
def rememberAt3 (prev : Option Char) (s : List Char) : Bool :=
  boundaryBefore prev &&
  (let g1 : List (List Char) :=
     (match litSeqCI (["want", "to"].map String.data) s with
      | some r => [r] | none => []) ++
     (match litSeqCI (["would", "like", "to"].map String.data) s with
      | some r => [r] | none => []) ++
     (match litCI "please".data s with
      | some r => [r] | none => [])
   g1.any fun r0 =>
     match munchWs1 r0 with
     | some r1 =>
       (["remember", "save", "store", "keep"].map String.data).any fun v =>
         match (litCI v r1).bind munchWs1 with
         | some q =>
           (optWordWs "my" [q]).any fun t =>
             tryTailB (["preference", "choice"].map String.data) t ||
             tryTailSeq [["that", "i", "prefer"].map String.data] t ||
             wordStart t
         | none => false
     | none => false)

/-- `REMEMBER_ASK_PATTERN.search(msg)` of `chat_service.py`. -/
def rememberAskSearch (s : List Char) : Bool :=
  searchFrom (fun p t => rememberAt1 p t || rememberAt2 p t || rememberAt3 p t)
    none s

/-! ### `NAME_PATTERNS` -/

/-- Greedy `[a-zA-Z0-9_\s]{0,n}`. -/
def takeClassUpTo : Nat → List Char → List Char
  | 0, _ => []
  | _, [] => []
  | n + 1, c :: cs =>
    if isWordChar c || isPyWs c then c :: takeClassUpTo n cs else []

/-- Try one name pattern at the head of `s`; returns `group(1)`. -/
def tryNameAt (alts : List (List Char)) (s : List Char) : Option (List Char) :=
  alts.findSome? fun a =>
    (litCI a s).bind fun r =>
      (munchWs1 r).bind fun r2 =>
        match r2 with
        | c :: cs => if c.isAlpha then some (c :: takeClassUpTo 50 cs) else none
        | [] => none

/-- `pattern.search(msg).group(1)` for a name pattern (no `\b` in these
patterns, so every start position is a candidate). -/
def searchNameFrom (alts : List (List Char)) : List Char → Option (List Char)
  | [] => none
  | c :: cs =>
    match tryNameAt alts (c :: cs) with
    | some g => some g
    | none => searchNameFrom alts cs

def namePattern1Alts : List (List Char) :=
  ["call me", "my name is", "i\x27m", "im", "i am", "this is"].map String.data

def namePattern2Alts : List (List Char) :=
  ["you can call me", "call me"].map String.data

/-! ### The memory-write policy (`_extract_and_store_memory`)

The effect of one turn's memory-write step is modelled as the ordered
list of repository calls it performs.  The two free-text interest
regexes (`COLLECTION_INTEREST_PATTERN`, `PRICE_RANGE_PATTERN`) only ever
produce `intent`-typed writes; their `group(1)` search results are
passed in as parameters `collHit` and `priceHit`, and the claims proved
below hold for every outcome of those searches. -/

inductive MemOp where
  /-- `self.repo.delete_memories_by_type(user_id, mtype)` -/
  | deleteByType (mtype : String)
  /-- `self.repo.upsert_memory(user_id, mtype, key, value)` -/
  | upsertMem (mtype key : String) (value : List Char)
deriving DecidableEq

/-- Validation applied to a matched name before storing it. -/
def nameValidatedOp (g : List Char) : List MemOp :=
  let name := pyStrip g
  if name.length ≤ 50 &&
      !(lowerL name == "me".data || lowerL name == "i".data ||
        lowerL name == "a".data || lowerL name == "the".data) then
    [MemOp.upsertMem "personal" "display_name" name]
  else []

/-- The `for pat in NAME_PATTERNS` loop: the first pattern that matches
ends the loop (`break`), whether or not its capture validates. -/
def nameDisplayOps (msg : List Char) : List MemOp :=
  match searchNameFrom namePattern1Alts msg with
  | some g => nameValidatedOp g
  | none =>
    match searchNameFrom namePattern2Alts msg with
    | some g => nameValidatedOp g
    | none => []

/-- `d.get(k)` restricted to truthy values (`if d.get(k):`). -/
def truthyGet (d : Dict (List Char)) (k : String) : Option (List Char) :=
  match getVal d k with
  | some v => if v.isEmpty then none else some v
  | none => none

/-- Personal upserts driven by the `[STORE_PERSONAL]` payload. -/
def llmPersonalOps (p : Dict (List Char)) : List MemOp :=
  (match truthyGet p "display_name" with
   | some v => [MemOp.upsertMem "personal" "display_name" (v.take 100)]
   | none => []) ++
  (match truthyGet p "timezone" with
   | some v => [MemOp.upsertMem "personal" "timezone" (v.take 100)]
   | none => []) ++
  (match truthyGet p "language" with
   | some v => [MemOp.upsertMem "personal" "language" (v.take 50)]
   | none => [])

def containsSub (needle : String) (hay : List Char) : Bool :=
  containsBy csEq needle.data hay

/-- `preferred_view` chain (LLM value first, else message keywords). -/
def viewOps (msgL : List Char) (pref : Dict (List Char)) : List MemOp :=
  let fallback : List MemOp :=
    if containsSub "table" msgL || containsSub "list view" msgL ||
        containsSub "list format" msgL ||
        (containsSub "list" msgL &&
          (containsSub "view" msgL || containsSub "prefer" msgL ||
           containsSub "preference" msgL)) then
      [MemOp.upsertMem "preference" "preferred_view" "table".data]
    else if containsSub "grid" msgL || containsSub "card view" msgL ||
        containsSub "grid format" msgL then
      [MemOp.upsertMem "preference" "preferred_view" "grid".data]
    else []
  match truthyGet pref "preferred_view" with
  | some v =>
    if lowerL v == "grid".data || lowerL v == "table".data then
      [MemOp.upsertMem "preference" "preferred_view" (lowerL v)]
    else fallback
  | none => fallback

/-- `detail_level` chain. -/
def detailOps (msgL : List Char) (pref : Dict (List Char)) : List MemOp :=
  let fallback : List MemOp :=
    if containsSub "more detail" msgL || containsSub "full info" msgL ||
        containsSub "detailed" msgL then
      [MemOp.upsertMem "preference" "detail_level" "detailed".data]
    else if containsSub "brief" msgL || containsSub "quick" msgL ||
        containsSub "minimal" msgL || containsSub "less detail" msgL then
      [MemOp.upsertMem "preference" "detail_level" "minimal".data]
    else if containsSub "standard" msgL &&
        (containsSub "detail" msgL || containsSub "info" msgL) then
      [MemOp.upsertMem "preference" "detail_level" "standard".data]
    else []
  match truthyGet pref "detail_level" with
  | some v =>
    if lowerL v == "minimal".data || lowerL v == "standard".data ||
        lowerL v == "detailed".data || lowerL v == "full".data then
      [MemOp.upsertMem "preference" "detail_level" (lowerL v)]
    else fallback
  | none => fallback

/-- `response_format` chain. -/
def formatOps (msgL : List Char) (pref : Dict (List Char)) : List MemOp :=
  let fallback : List MemOp :=
    if containsSub "short" msgL || containsSub "concise" msgL ||
        containsSub "quick answer" msgL then
      [MemOp.upsertMem "preference" "response_format" "concise".data]
    else if containsSub "detailed" msgL || containsSub "full" msgL ||
        containsSub "explain more" msgL then
      [MemOp.upsertMem "preference" "response_format" "detailed".data]
    else if containsSub "balanced" msgL then
      [MemOp.upsertMem "preference" "response_format" "balanced".data]
    else []
  match truthyGet pref "response_format" with
  | some v =>
    if lowerL v == "concise".data || lowerL v == "balanced".data ||
        lowerL v == "detailed".data then
      [MemOp.upsertMem "preference" "response_format" (lowerL v)]
    else fallback
  | none => fallback

/-- `style_preference` chain (message keywords only). -/
def styleOps (msgL : List Char) : List MemOp :=
  if containsSub "minimal" msgL &&
      (containsSub "style" msgL || containsSub "look" msgL ||
       containsSub "prefer" msgL) then
    [MemOp.upsertMem "preference" "style_preference" "minimal".data]
  else if containsSub "rich" msgL || containsSub "more style" msgL then
    [MemOp.upsertMem "preference" "style_preference" "rich".data]
  else []

/-- `primary_intent` chain. -/
def intentOps (msgL : List Char) : List MemOp :=
  if containsSub "just browsing" msgL || containsSub "browsing" msgL ||
      containsSub "looking around" msgL then
    [MemOp.upsertMem "intent" "primary_intent" "browsing".data]
  else if containsSub "looking to buy" msgL || containsSub "want to buy" msgL ||
      containsSub "buying" msgL then
    [MemOp.upsertMem "intent" "primary_intent" "buying".data]
  else if containsSub "collector" msgL || containsSub "collecting" msgL then
    [MemOp.upsertMem "intent" "primary_intent" "collecting".data]
  else if containsSub "research" msgL || containsSub "comparing" msgL ||
      containsSub "analysis" msgL then
    [MemOp.upsertMem "intent" "primary_intent" "research".data]
  else []

/-- Collection-interest and price-range writes from the two parameterised
regex results. -/
def interestOps (collHit priceHit : Option (List Char)) : List MemOp :=
  (match collHit with
   | some g =>
     let raw := pyStrip g
     if raw.length ≤ 200 then
       [MemOp.upsertMem "intent" "interest_collections" raw]
     else []
   | none => []) ++
  (match priceHit with
   | some p => [MemOp.upsertMem "intent" "price_range_interest"
                 ("under ".data ++ p ++ " ETH".data)]
   | none => [])

/-- The preference/intent section of `_extract_and_store_memory`. -/
def prefSectionOps (msgL : List Char) (pref : Dict (List Char))
    (collHit priceHit : Option (List Char)) : List MemOp :=
  viewOps msgL pref ++ detailOps msgL pref ++ formatOps msgL pref ++
  styleOps msgL ++ intentOps msgL ++ interestOps collHit priceHit

/-- `ChatService._extract_and_store_memory` as the ordered list of
repository operations it performs for one turn. -/
def extract_and_store_memory (message : List Char)
    (personalLlm prefLlm : Dict (List Char))
    (collHit priceHit : Option (List Char)) : List MemOp :=
  let msg := pyStrip message
  let msgL := lowerL msg
  if dontRememberPersonalSearch msg then [MemOp.deleteByType "personal"]
  else
    nameDisplayOps msg ++ llmPersonalOps personalLlm ++
    (if !(rememberAskSearch msg) && prefLlm.isEmpty then []
     else prefSectionOps msgL prefLlm collHit priceHit)

/-- The spec's merge policy, stated from its words (§4.2): iterate all
occurrences in document order; on decode failure skip that one
occurrence; on success shallow-merge the decoded object into an
accumulator, a later occurrence winning on key collision. -/
def specMergedPayload {V : Type} (dec : List Char → Option (Dict V))
    (occurrences : List (List Char)) : Dict V :=
  occurrences.foldl (fun acc g =>
    match dec (pyStrip g) with
    | some d => dictUpdate acc d
    | none => acc) []

/-- A concrete decoder for worked examples: decodes the two JSON object
literals `{"a":1}` and `{"a":2}` used by the spec's examples (any other
payload, e.g. the malformed `{bad json`, decodes to `none`). -/
def decEx (s : List Char) : Option (Dict String) :=
  if s = "\x7b\x22a\x22:1\x7d".data then some [("a", "1")]
  else if s = "\x7b\x22a\x22:2\x7d".data then some [("a", "2")]
  else none

/-- All lines but the last (for reasoning about `splitOnNl` of appends). -/
def linesInit : List (List Char) → List (List Char)
  | [] => []
  | [_] => []
  | l :: l' :: ls => l :: linesInit (l' :: ls)

/-- The last line (total; `[]` on the empty list). -/
def linesLast : List (List Char) → List Char
  | [] => []
  | [l] => l
  | _ :: l' :: ls => linesLast (l' :: ls)

/-- Prepend `p` onto the first line of a line list. -/
def consHead (p : List Char) : List (List Char) → List (List Char)
  | [] => [p]
  | h :: t => (p ++ h) :: t

/-- The payload contributed by one marker block whose content is `mid`:
`json.loads(mid.strip())` merged into an empty accumulator when it is an
object, the empty dict otherwise. -/
def payloadOne {V : Type} (dec : List Char → Option (Dict V)) (mid : List Char) :
    Dict V :=
  match dec (pyStrip mid) with
  | some d => dictUpdate [] d
  | none => []

/-- Does the operation create or update a `preference` or `intent` record? -/
def opIsPrefOrIntent : MemOp → Bool
  | MemOp.deleteByType _ => false
  | MemOp.upsertMem t _ _ => t == "preference" || t == "intent"

/-! ## Helper lemmas -/

theorem dictUpdate_nil {V : Type} (d : Dict V) : dictUpdate d [] = d := rfl

theorem updateFirst_map {α β : Type} (p : α → Bool) (f : α → α) (g : α → β)
    (h : ∀ x, g (f x) = g x) : ∀ l : List α, (updateFirst p f l).map g = l.map g := by
  intro l
  induction l with
  | nil => rfl
  | cons x xs ih =>
    by_cases hp : p x = true
    · simp [updateFirst, hp, h x]
    · simp only [Bool.not_eq_true] at hp
      simp [updateFirst, hp, ih]

theorem find?_append_cons {α : Type} (p : α → Bool) (l₁ : List α) (m : α) (l₂ : List α)
    (h₁ : ∀ r ∈ l₁, p r = false) (hm : p m = true) :
    (l₁ ++ m :: l₂).find? p = some m := by
  induction l₁ with
  | nil => simp [List.find?_cons, hm]
  | cons x xs ih =>
    have hx : p x = false := h₁ x (by simp)
    simp only [List.cons_append, List.find?_cons, hx]
    exact ih (fun r hr => h₁ r (by simp [hr]))

theorem updateFirst_append_cons {α : Type} (p : α → Bool) (f : α → α)
    (l₁ : List α) (m : α) (l₂ : List α)
    (h₁ : ∀ r ∈ l₁, p r = false) (hm : p m = true) :
    updateFirst p f (l₁ ++ m :: l₂) = l₁ ++ f m :: l₂ := by
  induction l₁ with
  | nil => simp [updateFirst, hm]
  | cons x xs ih =>
    have hx : p x = false := h₁ x (by simp)
    simp only [List.cons_append, updateFirst, hx, Bool.false_eq_true, if_false]
    show x :: updateFirst p f (xs ++ m :: l₂) = x :: (xs ++ f m :: l₂)
    rw [ih (fun r hr => h₁ r (by simp [hr]))]

/-! ## Claim theorems -/

/-- C10: calling `update_session_state` with a `session_id` that matches no
existing session is a silent no-op: nothing is raised, written or created. -/
theorem update_session_state_missing_noop {V : Type} (sessions : List (SessionRec V))
    (sid : String) (upd : Dict V) (now : Nat)
    (h : get_session sessions sid = none) :
    update_session_state sessions sid upd now = sessions := by
  unfold update_session_state
  rw [h]

/-- Witness for C10 at a concrete store holding one unrelated session. -/
theorem update_session_state_missing_noop_witness :
    get_session [(⟨"s2", "u1", [("x", 1)], 3⟩ : SessionRec Nat)] "s1" = none ∧
    update_session_state [(⟨"s2", "u1", [("x", 1)], 3⟩ : SessionRec Nat)] "s1"
      [("k", 2)] 7 = [⟨"s2", "u1", [("x", 1)], 3⟩] :=
  ⟨rfl, update_session_state_missing_noop _ "s1" [("k", 2)] 7 rfl⟩

/-- C9: when `upsert_memory` finds an existing record for `(user_id, key)`,
it overwrites that record's `value`, `confidence` and `updated_at` in place
(no new record), and the record's `memory_type` is untouched even when the
call passes a different `memory_type` argument. -/
theorem upsert_memory_existing_keeps_type (db₁ db₂ : List MemoryRec) (m : MemoryRec)
    (uid mtype key value : String) (c : ℚ) (now : Nat)
    (h₁ : ∀ r ∈ db₁, (r.userId == uid && r.key == key) = false)
    (hm : (m.userId == uid && m.key == key) = true) :
    upsert_memory (db₁ ++ m :: db₂) uid mtype key value c now =
      db₁ ++ { m with value := value, confidence := c, updatedAt := now } :: db₂ ∧
    ({ m with value := value, confidence := c, updatedAt := now } : MemoryRec).memoryType
      = m.memoryType := by
  refine ⟨?_, rfl⟩
  unfold upsert_memory
  rw [find?_append_cons _ _ _ _ h₁ hm]
  exact updateFirst_append_cons _ _ _ _ _ h₁ hm

/-- Witness for C9: the stored type stays `personal` although the upsert
passes `preference`. -/
theorem upsert_memory_existing_keeps_type_witness :
    upsert_memory [⟨"u1", "personal", "display_name", "Bob", 1, 0⟩]
        "u1" "preference" "display_name" "Alex" 1 5 =
      [⟨"u1", "personal", "display_name", "Alex", 1, 5⟩] :=
  (upsert_memory_existing_keeps_type [] []
    ⟨"u1", "personal", "display_name", "Bob", 1, 0⟩
    "u1" "preference" "display_name" "Alex" 1 5
    (fun r hr => absurd hr (List.not_mem_nil r)) (by decide)).1

/-- C4 counterexample: `update_session_state` itself, called directly with
an empty update on an existing session, is not a no-op — the state value
is merely copied, but `updated_at` is bumped (5 becomes 9) and the record
is committed. -/
theorem update_session_state_empty_update_bumps :
    update_session_state [(⟨"s1", "u1", [("x", 1)], 5⟩ : SessionRec Nat)] "s1" [] 9 =
      [⟨"s1", "u1", [("x", 1)], 9⟩] ∧
    ([(⟨"s1", "u1", [("x", 1)], 9⟩ : SessionRec Nat)] ≠
      [(⟨"s1", "u1", [("x", 1)], 5⟩ : SessionRec Nat)]) := by
  exact ⟨rfl, by decide⟩

/-- C4 amended: the turn pipeline's merge step (`if state_updates:` in
`process_message`) skips the repository call entirely on an empty update,
leaving the whole session store untouched; and even a direct
`update_session_state` call with an empty update never changes any
session's id, owner or state value (only `updated_at`). -/
theorem process_message_empty_update_noop {V : Type} :
    (∀ (sessions : List (SessionRec V)) (sid : String) (now : Nat),
       process_message_state_merge sessions sid [] now = sessions) ∧
    (∀ (sessions : List (SessionRec V)) (sid : String) (now : Nat),
       (update_session_state sessions sid [] now).map (fun s => (s.id, s.userId, s.state)) =
         sessions.map (fun s => (s.id, s.userId, s.state))) := by
  constructor
  · intro sessions sid now
    simp [process_message_state_merge]
  · intro sessions sid now
    unfold update_session_state
    cases hget : get_session sessions sid with
    | none => rfl
    | some s =>
      exact updateFirst_map _ _ _ (fun x => by simp [dictUpdate_nil]) sessions

theorem opIsPrefOrIntent_nameValidatedOp (g : List Char) :
    ∀ op ∈ nameValidatedOp g, opIsPrefOrIntent op = false := by
  intro op hop
  simp only [nameValidatedOp] at hop
  split at hop
  · simp only [List.mem_singleton] at hop
    subst hop
    rfl
  · exact absurd hop (List.not_mem_nil op)

theorem opIsPrefOrIntent_nameDisplayOps (msg : List Char) :
    ∀ op ∈ nameDisplayOps msg, opIsPrefOrIntent op = false := by
  intro op hop
  unfold nameDisplayOps at hop
  cases h1 : searchNameFrom namePattern1Alts msg with
  | some g =>
    rw [h1] at hop
    exact opIsPrefOrIntent_nameValidatedOp g op hop
  | none =>
    rw [h1] at hop
    cases h2 : searchNameFrom namePattern2Alts msg with
    | some g =>
      rw [h2] at hop
      exact opIsPrefOrIntent_nameValidatedOp g op hop
    | none =>
      rw [h2] at hop
      exact absurd hop (List.not_mem_nil op)

theorem opIsPrefOrIntent_llmPersonalOps (p : Dict (List Char)) :
    ∀ op ∈ llmPersonalOps p, opIsPrefOrIntent op = false := by
  intro op hop
  unfold llmPersonalOps at hop
  rcases List.mem_append.mp hop with h | h
  · rcases List.mem_append.mp h with h' | h'
    · cases hd : truthyGet p "display_name" with
      | some v => rw [hd] at h'; simp only [List.mem_singleton] at h'; subst h'; rfl
      | none => rw [hd] at h'; exact absurd h' (List.not_mem_nil op)
    · cases hd : truthyGet p "timezone" with
      | some v => rw [hd] at h'; simp only [List.mem_singleton] at h'; subst h'; rfl
      | none => rw [hd] at h'; exact absurd h' (List.not_mem_nil op)
  · cases hd : truthyGet p "language" with
    | some v => rw [hd] at h; simp only [List.mem_singleton] at h; subst h; rfl
    | none => rw [hd] at h; exact absurd h (List.not_mem_nil op)

/-- C5: when the user's message matches the forget-personal intent pattern,
the memory-write step performs exactly one repository operation — deleting
all `personal` memories — and nothing else that turn, regardless of any
`[STORE_PERSONAL]` payload the same turn carries; and the delete operation
leaves no `personal` record of that user behind. -/
theorem forget_intent_exclusive_delete (message : List Char)
    (pLlm prefLlm : Dict (List Char)) (cH pH : Option (List Char))
    (h : dontRememberPersonalSearch (pyStrip message) = true) :
    extract_and_store_memory message pLlm prefLlm cH pH =
      [MemOp.deleteByType "personal"] ∧
    ∀ (db : List MemoryRec) (uid : String),
      ∀ r ∈ (delete_memories_by_type db uid "personal").1,
        ¬(r.userId = uid ∧ r.memoryType = "personal") := by
  constructor
  · simp only [extract_and_store_memory, h, if_true]
  · intro db uid r hr hcontra
    unfold delete_memories_by_type at hr
    have := (List.mem_filter.mp hr).2
    simp [hcontra.1, hcontra.2] at this

/-- Witness for C5: the turn "please forget my details" with a pending
LLM payload `{"display_name": "Alex"}` performs only the delete. -/
theorem forget_intent_exclusive_delete_witness :
    extract_and_store_memory "please forget my details".data
        [("display_name", "Alex".data)] [] none none =
      [MemOp.deleteByType "personal"] :=
  (forget_intent_exclusive_delete "please forget my details".data
    [("display_name", "Alex".data)] [] none none rfl).1

/-- C7: when the message does not match the remember/save/store intent
pattern and the LLM preference payload is empty, the memory-write step
performs no `preference` or `intent` writes at all (for every outcome of
the collection-interest and price-range searches). -/
theorem no_implicit_preference_or_intent_writes (message : List Char)
    (pLlm prefLlm : Dict (List Char)) (cH pH : Option (List Char))
    (h1 : rememberAskSearch (pyStrip message) = false)
    (h2 : prefLlm = ([] : Dict (List Char))) :
    ∀ op ∈ extract_and_store_memory message pLlm prefLlm cH pH,
      opIsPrefOrIntent op = false := by
  intro op hop
  simp only [extract_and_store_memory] at hop
  by_cases hf : dontRememberPersonalSearch (pyStrip message) = true
  · rw [hf] at hop
    simp only [if_true, List.mem_singleton] at hop
    subst hop
    rfl
  · simp only [Bool.not_eq_true] at hf
    rw [hf] at hop
    simp only [Bool.false_eq_true, if_false] at hop
    rw [h1, h2] at hop
    simp only [Bool.not_false, List.isEmpty_nil, Bool.and_self, if_true,
      List.append_nil] at hop
    rcases List.mem_append.mp hop with h | h
    · exact opIsPrefOrIntent_nameDisplayOps _ op h
    · exact opIsPrefOrIntent_llmPersonalOps _ op h

/-- Witness for C7: the message "I like grid view", with no remember
phrasing and no LLM preference payload, yields no preference or intent
write. -/
theorem no_implicit_preference_or_intent_writes_witness :
    (extract_and_store_memory "I like grid view".data [] [] none none).all
      (fun op => !(opIsPrefOrIntent op)) = true := by
  apply List.all_eq_true.mpr
  intro op hop
  have h := no_implicit_preference_or_intent_writes "I like grid view".data
    [] [] none none rfl rfl op hop
  simp [h]

theorem projData_nft_loop (nftS collS detS : String) :
    ∀ (bs : List ContentBlock) (nu cu du : Bool),
    projData isNftKind bs (buildBlocksLoop nftS collS detS bs nu cu du) =
      if nu then List.replicate (bs.countP isNftKind) ""
      else if bs.countP isNftKind = 0 then []
      else nftS :: List.replicate (bs.countP isNftKind - 1) "" := by
  intro bs
  induction bs with
  | nil => intro nu cu du; cases nu <;> simp [projData, buildBlocksLoop]
  | cons b bs ih =>
    intro nu cu du
    by_cases ht : (b.type == "text") = true
    · have hk : isNftKind b = false := by
        have hb : b.type = "text" := by simpa using ht
        simp [isNftKind, hb]
      have hcount : (b :: bs).countP isNftKind = bs.countP isNftKind := by
        simp [List.countP_cons, hk]
      simp only [buildBlocksLoop, ht, if_true, projData, hk, Bool.false_eq_true,
        if_false, List.nil_append, hcount]
      exact ih nu cu du
    · simp only [Bool.not_eq_true] at ht
      by_cases hc : (b.type == "html_component" && templateTruthy b) = true
      · by_cases hg : (((b.template.getD "").toLower == "grid") ||
            ((b.template.getD "").toLower == "table")) = true
        · have hk : isNftKind b = true := by
            simp only [isNftKind, hc, hg, Bool.and_self]
          have hcount : (b :: bs).countP isNftKind = bs.countP isNftKind + 1 := by
            simp [List.countP_cons, hk]
          simp only [buildBlocksLoop, ht, Bool.false_eq_true, if_false, hc,
            if_true, hg, projData, hk, List.singleton_append, hcount]
          rw [ih true cu du]
          cases nu with
          | false => simp
          | true => simp [List.replicate_succ]
        · have hk : isNftKind b = false := by
            simp only [isNftKind, hg, Bool.and_false]
          have hcount : (b :: bs).countP isNftKind = bs.countP isNftKind := by
            simp [List.countP_cons, hk]
          by_cases hcoll : (((b.template.getD "").toLower == "collection_grid") ||
              ((b.template.getD "").toLower == "collection_table")) = true
          · simp only [buildBlocksLoop, ht, Bool.false_eq_true, if_false, hc,
              if_true, hg, hcoll, projData, hk, List.nil_append, hcount]
            exact ih nu true du
          · by_cases hdet : (((b.template.getD "").toLower == "details")) = true
            · simp only [buildBlocksLoop, ht, Bool.false_eq_true, if_false, hc,
                if_true, hg, hcoll, hdet, projData, hk, List.nil_append, hcount]
              exact ih nu cu true
            · simp only [buildBlocksLoop, ht, Bool.false_eq_true, if_false, hc,
                if_true, hg, hcoll, hdet, projData, hk, List.nil_append, hcount]
              exact ih nu cu du
      · have hk : isNftKind b = false := by
          simp only [Bool.not_eq_true] at hc
          simp only [isNftKind, hc, Bool.false_and]
        have hcount : (b :: bs).countP isNftKind = bs.countP isNftKind := by
          simp [List.countP_cons, hk]
        simp only [buildBlocksLoop, ht, Bool.false_eq_true, if_false, hc,
          projData, hk, List.nil_append, hcount]
        exact ih nu cu du

theorem projData_collection_loop (nftS collS detS : String) :
    ∀ (bs : List ContentBlock) (nu cu du : Bool),
    projData isCollectionKind bs (buildBlocksLoop nftS collS detS bs nu cu du) =
      if cu then List.replicate (bs.countP isCollectionKind) ""
      else if bs.countP isCollectionKind = 0 then []
      else collS :: List.replicate (bs.countP isCollectionKind - 1) "" := by
  intro bs
  induction bs with
  | nil => intro nu cu du; cases cu <;> simp [projData, buildBlocksLoop]
  | cons b bs ih =>
    intro nu cu du
    by_cases ht : (b.type == "text") = true
    · have hk : isCollectionKind b = false := by
        have hb : b.type = "text" := by simpa using ht
        simp [isCollectionKind, hb]
      have hcount : (b :: bs).countP isCollectionKind = bs.countP isCollectionKind := by
        simp [List.countP_cons, hk]
      simp only [buildBlocksLoop, ht, if_true, projData, hk, Bool.false_eq_true,
        if_false, List.nil_append, hcount]
      exact ih nu cu du
    · simp only [Bool.not_eq_true] at ht
      by_cases hc : (b.type == "html_component" && templateTruthy b) = true
      · by_cases hg : (((b.template.getD "").toLower == "grid") ||
            ((b.template.getD "").toLower == "table")) = true
        · have ht2 : (b.template.getD "").toLower = "grid" ∨
              (b.template.getD "").toLower = "table" := by
            simpa using hg
          have hk : isCollectionKind b = false := by
            rcases ht2 with h | h <;> simp [isCollectionKind, h]
          have hcount : (b :: bs).countP isCollectionKind = bs.countP isCollectionKind := by
            simp [List.countP_cons, hk]
          simp only [buildBlocksLoop, ht, Bool.false_eq_true, if_false, hc,
            if_true, hg, projData, hk, List.nil_append, hcount]
          exact ih true cu du
        · by_cases hcoll : (((b.template.getD "").toLower == "collection_grid") ||
              ((b.template.getD "").toLower == "collection_table")) = true
          · have hk : isCollectionKind b = true := by
              simp only [isCollectionKind, hc, hcoll, Bool.and_self]
            have hcount : (b :: bs).countP isCollectionKind =
                bs.countP isCollectionKind + 1 := by
              simp [List.countP_cons, hk]
            simp only [buildBlocksLoop, ht, Bool.false_eq_true, if_false, hc,
              if_true, hg, hcoll, projData, hk, List.singleton_append, hcount]
            rw [ih nu true du]
            cases cu with
            | false => simp
            | true => simp [List.replicate_succ]
          · have hk : isCollectionKind b = false := by
              simp only [isCollectionKind, hcoll, Bool.and_false]
            have hcount : (b :: bs).countP isCollectionKind =
                bs.countP isCollectionKind := by
              simp [List.countP_cons, hk]
            by_cases hdet : (((b.template.getD "").toLower == "details")) = true
            · simp only [buildBlocksLoop, ht, Bool.false_eq_true, if_false, hc,
                if_true, hg, hcoll, hdet, projData, hk, List.nil_append, hcount]
              exact ih nu cu true
            · simp only [buildBlocksLoop, ht, Bool.false_eq_true, if_false, hc,
                if_true, hg, hcoll, hdet, projData, hk, List.nil_append, hcount]
              exact ih nu cu du
      · have hk : isCollectionKind b = false := by
          simp only [Bool.not_eq_true] at hc
          simp only [isCollectionKind, hc, Bool.false_and]
        have hcount : (b :: bs).countP isCollectionKind = bs.countP isCollectionKind := by
          simp [List.countP_cons, hk]
        simp only [buildBlocksLoop, ht, Bool.false_eq_true, if_false, hc,
          projData, hk, List.nil_append, hcount]
        exact ih nu cu du

theorem projData_detail_loop (nftS collS detS : String) :
    ∀ (bs : List ContentBlock) (nu cu du : Bool),
    projData isDetailKind bs (buildBlocksLoop nftS collS detS bs nu cu du) =
      if du then List.replicate (bs.countP isDetailKind) ""
      else if bs.countP isDetailKind = 0 then []
      else detS :: List.replicate (bs.countP isDetailKind - 1) "" := by
  intro bs
  induction bs with
  | nil => intro nu cu du; cases du <;> simp [projData, buildBlocksLoop]
  | cons b bs ih =>
    intro nu cu du
    by_cases ht : (b.type == "text") = true
    · have hk : isDetailKind b = false := by
        have hb : b.type = "text" := by simpa using ht
        simp [isDetailKind, hb]
      have hcount : (b :: bs).countP isDetailKind = bs.countP isDetailKind := by
        simp [List.countP_cons, hk]
      simp only [buildBlocksLoop, ht, if_true, projData, hk, Bool.false_eq_true,
        if_false, List.nil_append, hcount]
      exact ih nu cu du
    · simp only [Bool.not_eq_true] at ht
      by_cases hc : (b.type == "html_component" && templateTruthy b) = true
      · by_cases hg : (((b.template.getD "").toLower == "grid") ||
            ((b.template.getD "").toLower == "table")) = true
        · have ht2 : (b.template.getD "").toLower = "grid" ∨
              (b.template.getD "").toLower = "table" := by
            simpa using hg
          have hk : isDetailKind b = false := by
            rcases ht2 with h | h <;> simp [isDetailKind, h]
          have hcount : (b :: bs).countP isDetailKind = bs.countP isDetailKind := by
            simp [List.countP_cons, hk]
          simp only [buildBlocksLoop, ht, Bool.false_eq_true, if_false, hc,
            if_true, hg, projData, hk, List.nil_append, hcount]
          exact ih true cu du
        · by_cases hcoll : (((b.template.getD "").toLower == "collection_grid") ||
              ((b.template.getD "").toLower == "collection_table")) = true
          · have ht2 : (b.template.getD "").toLower = "collection_grid" ∨
                (b.template.getD "").toLower = "collection_table" := by
              simpa using hcoll
            have hk : isDetailKind b = false := by
              rcases ht2 with h | h <;> simp [isDetailKind, h]
            have hcount : (b :: bs).countP isDetailKind = bs.countP isDetailKind := by
              simp [List.countP_cons, hk]
            simp only [buildBlocksLoop, ht, Bool.false_eq_true, if_false, hc,
              if_true, hg, hcoll, projData, hk, List.nil_append, hcount]
            exact ih nu true du
          · by_cases hdet : (((b.template.getD "").toLower == "details")) = true
            · have hk : isDetailKind b = true := by
                simp only [isDetailKind, hc, hdet, Bool.and_self]
              have hcount : (b :: bs).countP isDetailKind =
                  bs.countP isDetailKind + 1 := by
                simp [List.countP_cons, hk]
              simp only [buildBlocksLoop, ht, Bool.false_eq_true, if_false, hc,
                if_true, hg, hcoll, hdet, projData, hk, List.singleton_append, hcount]
              rw [ih nu cu true]
              cases du with
              | false => simp
              | true => simp [List.replicate_succ]
            · have hk : isDetailKind b = false := by
                simp only [isDetailKind, hdet, Bool.and_false]
              have hcount : (b :: bs).countP isDetailKind = bs.countP isDetailKind := by
                simp [List.countP_cons, hk]
              simp only [buildBlocksLoop, ht, Bool.false_eq_true, if_false, hc,
                if_true, hg, hcoll, hdet, projData, hk, List.nil_append, hcount]
              exact ih nu cu du
      · have hk : isDetailKind b = false := by
          simp only [Bool.not_eq_true] at hc
          simp only [isDetailKind, hc, Bool.false_and]
        have hcount : (b :: bs).countP isDetailKind = bs.countP isDetailKind := by
          simp [List.countP_cons, hk]
        simp only [buildBlocksLoop, ht, Bool.false_eq_true, if_false, hc,
          projData, hk, List.nil_append, hcount]
        exact ih nu cu du

/-- C8: in history compaction each per-kind data summary is consumed at
most once per turn: among the component blocks of one kind, the first
receives the derived summary string and every later one receives `""`. -/
theorem build_blocks_summary_used_once (blocks : List ContentBlock)
    (nftS collS detS : String) :
    (projData isNftKind blocks (build_blocks_for_storage blocks nftS collS detS) =
      if blocks.countP isNftKind = 0 then []
      else nftS :: List.replicate (blocks.countP isNftKind - 1) "") ∧
    (projData isCollectionKind blocks (build_blocks_for_storage blocks nftS collS detS) =
      if blocks.countP isCollectionKind = 0 then []
      else collS :: List.replicate (blocks.countP isCollectionKind - 1) "") ∧
    (projData isDetailKind blocks (build_blocks_for_storage blocks nftS collS detS) =
      if blocks.countP isDetailKind = 0 then []
      else detS :: List.replicate (blocks.countP isDetailKind - 1) "") := by
  refine ⟨?_, ?_, ?_⟩
  · simpa using projData_nft_loop nftS collS detS blocks false false false
  · simpa using projData_collection_loop nftS collS detS blocks false false false
  · simpa using projData_detail_loop nftS collS detS blocks false false false

theorem isPrefixBy_nil_false {eq : Char → Char → Bool} {o : List Char}
    (h0 : o ≠ []) : isPrefixBy eq o [] = false := by
  cases o with
  | nil => exact absurd rfl h0
  | cons a as => rfl

theorem scanPayload_eq_foldl {V : Type} (eq : Char → Char → Bool) (o c : List Char)
    (dec : List Char → Option (Dict V)) :
    ∀ (s : List Char) (acc : Dict V),
      scanPayload eq o c dec acc s =
        (capturesBy eq o c s).foldl (fun a g =>
          match dec (pyStrip g) with
          | some d => dictUpdate a d
          | none => a) acc := by
  suffices H : ∀ (n : Nat) (s : List Char), s.length ≤ n → ∀ acc : Dict V,
      scanPayload eq o c dec acc s =
        (capturesBy eq o c s).foldl (fun a g =>
          match dec (pyStrip g) with
          | some d => dictUpdate a d
          | none => a) acc by
    intro s acc
    exact H s.length s (Nat.le_refl _) acc
  intro n
  induction n with
  | zero =>
    intro s hs acc
    have hnil : s = [] := List.length_eq_zero.mp (Nat.le_zero.mp hs)
    subst hnil
    simp [scanPayload, capturesBy]
  | succ n ih =>
    intro s hs acc
    cases s with
    | nil => simp [scanPayload, capturesBy]
    | cons ch cs =>
      by_cases h0 : o = []
      · simp [scanPayload, capturesBy, h0]
      · unfold scanPayload capturesBy
        simp only [dif_neg h0]
        by_cases hp : isPrefixBy eq o (ch :: cs) = true
        · simp only [hp, if_true]
          cases hidx : findIdxBy eq c ((ch :: cs).drop o.length) with
          | some k =>
            simp only [hidx, List.foldl_cons]
            have hlen : (((ch :: cs).drop o.length).drop (k + c.length)).length ≤ n := by
              have h1 : 0 < o.length := List.length_pos.mpr h0
              have hs' : cs.length + 1 ≤ n + 1 := by simpa using hs
              have e1 : (((ch :: cs).drop o.length).drop (k + c.length)).length ≤
                  ((ch :: cs).drop o.length).length := by
                rw [List.length_drop]; exact Nat.sub_le _ _
              have e2 : ((ch :: cs).drop o.length).length ≤ cs.length := by
                rw [List.length_drop, List.length_cons]; omega
              omega
            exact ih _ hlen _
          | none => simp [hidx]
        · simp only [Bool.not_eq_true] at hp
          simp only [hp, Bool.false_eq_true, if_false]
          have hlen : cs.length ≤ n := by
            simpa [Nat.succ_le_succ_iff] using hs
          exact ih cs hlen acc

/-- C6: for each marker kind, the extracted payload is exactly the spec's
left-to-right shallow merge over that kind's matched occurrences (decode
failures skipped, later occurrence wins); and on the spec's example with
two `[STORE_PREFERENCE]` blocks carrying `{"a":1}` then `{"a":2}`, the
merged payload is `{"a":2}`. -/
theorem extractor_payload_eq_spec_merge :
    (∀ (V : Type) (dec : List Char → Option (Dict V)) (raw : List Char),
       (extract_and_strip_session_data dec raw).1 =
         specMergedPayload dec (capturesBy ciEq sessionOpen sessionClose raw) ∧
       (extract_and_strip_store_personal dec raw).1 =
         specMergedPayload dec (capturesBy csEq storePersonalOpen storePersonalClose raw) ∧
       (extract_and_strip_store_preference dec raw).1 =
         specMergedPayload dec
           (capturesBy csEq storePreferenceOpen storePreferenceClose raw)) ∧
    (extract_and_strip_store_preference decEx
        ("[STORE_PREFERENCE]\x7b\x22a\x22:1\x7d[/STORE_PREFERENCE] and [STORE_PREFERENCE]\x7b\x22a\x22:2\x7d[/STORE_PREFERENCE]").data).1 =
      [("a", "2")] := by
  constructor
  · intro V dec raw
    refine ⟨?_, ?_, ?_⟩ <;>
      simp [extract_and_strip_session_data, extract_and_strip_store_personal,
        extract_and_strip_store_preference, specMergedPayload, scanPayload_eq_foldl]
  · simp [extract_and_strip_store_preference, scanPayload, decEx, isPrefixBy,
      findIdxBy, csEq, pyStrip, trimLeft, trimRight, isPyWs, dictUpdate, insertKV,
      storePreferenceOpen, storePreferenceClose]
    repeat' constructor

/-! ## Occurrence lemmas for the strip functions -/

theorem containsBy_nil_pattern (eq : Char → Char → Bool) :
    ∀ s : List Char, containsBy eq [] s = true
  | [] => rfl
  | _ :: cs => by simp [containsBy, isPrefixBy, containsBy_nil_pattern eq cs]

theorem isPrefixBy_append_left {eq : Char → Char → Bool} :
    ∀ {t u : List Char} (v : List Char),
      isPrefixBy eq t u = true → isPrefixBy eq t (u ++ v) = true := by
  intro t
  induction t with
  | nil => intro u v _; rfl
  | cons a as ih =>
    intro u v h
    cases u with
    | nil => simp [isPrefixBy] at h
    | cons b bs =>
      simp only [isPrefixBy, Bool.and_eq_true] at h ⊢
      exact ⟨h.1, ih v h.2⟩

theorem containsBy_append_right {eq : Char → Char → Bool} {t : List Char} :
    ∀ {m : List Char} (r : List Char),
      containsBy eq t m = true → containsBy eq t (m ++ r) = true := by
  intro m
  induction m with
  | nil =>
    intro r h
    simp only [containsBy] at h
    cases t with
    | nil => exact containsBy_nil_pattern eq r
    | cons a as => simp [isPrefixBy] at h
  | cons b bs ih =>
    intro r h
    simp only [containsBy, Bool.or_eq_true] at h ⊢
    rcases h with h | h
    · exact Or.inl (isPrefixBy_append_left r h)
    · exact Or.inr (ih r h)

theorem containsBy_append_left {eq : Char → Char → Bool} {t : List Char} :
    ∀ (a : List Char) {b : List Char},
      containsBy eq t b = true → containsBy eq t (a ++ b) = true := by
  intro a
  induction a with
  | nil => intro b h; exact h
  | cons x xs ih =>
    intro b h
    simp only [List.cons_append, containsBy, Bool.or_eq_true]
    exact Or.inr (ih h)

theorem containsBy_of_infix {eq : Char → Char → Bool} {t m s : List Char}
    (h : m <:+: s) (hc : containsBy eq t m = true) : containsBy eq t s = true := by
  rcases h with ⟨l, r, rfl⟩
  rw [List.append_assoc]
  exact containsBy_append_left l (containsBy_append_right r hc)

theorem not_containsBy_infix {eq : Char → Char → Bool} {t m s : List Char}
    (hs : containsBy eq t s = false) (h : m <:+: s) : containsBy eq t m = false := by
  by_contra hc
  simp only [Bool.not_eq_false] at hc
  rw [ containsBy_of_infix h hc] at hs
  exact absurd hs (by simp)

theorem findIdxBy_none_of_not_contains {eq : Char → Char → Bool} {t : List Char} :
    ∀ {s : List Char}, containsBy eq t s = false → findIdxBy eq t s = none := by
  intro s
  induction s with
  | nil =>
    intro h
    simp only [containsBy] at h
    simp [findIdxBy, h]
  | cons c cs ih =>
    intro h
    simp only [containsBy, Bool.or_eq_false_iff] at h
    simp [findIdxBy, h.1, ih h.2]

theorem not_contains_of_findIdxBy_none {eq : Char → Char → Bool} {t : List Char} :
    ∀ {s : List Char}, findIdxBy eq t s = none → containsBy eq t s = false := by
  intro s
  induction s with
  | nil =>
    intro h
    simp only [findIdxBy] at h
    by_cases hp : isPrefixBy eq t [] = true
    · simp [hp] at h
    · simp only [Bool.not_eq_true] at hp
      simpa [containsBy] using hp
  | cons c cs ih =>
    intro h
    simp only [findIdxBy] at h
    by_cases hp : isPrefixBy eq t (c :: cs) = true
    · simp [hp] at h
    · simp only [Bool.not_eq_true] at hp
      cases hj : findIdxBy eq t cs with
      | none => simp [containsBy, hp, ih hj]
      | some j => rw [hj] at h; simp [hp] at h

theorem isPrefixBy_take {eq : Char → Char → Bool} :
    ∀ {t u : List Char} {n : Nat},
      isPrefixBy eq t (u.take n) = true → isPrefixBy eq t u = true := by
  intro t
  induction t with
  | nil => intro u n _; rfl
  | cons a as ih =>
    intro u n h
    cases u with
    | nil => simpa [List.take_nil] using h
    | cons b bs =>
      cases n with
      | zero => simp [isPrefixBy] at h
      | succ m =>
        simp only [List.take_succ_cons, isPrefixBy, Bool.and_eq_true] at h ⊢
        exact ⟨h.1, ih h.2⟩

theorem findIdxBy_some_take {eq : Char → Char → Bool} {t : List Char} (htne : t ≠ []) :
    ∀ {s : List Char} {i : Nat},
      findIdxBy eq t s = some i → containsBy eq t (s.take i) = false := by
  intro s
  induction s with
  | nil =>
    intro i h
    rw [List.take_nil]
    simpa [containsBy] using isPrefixBy_nil_false htne
  | cons c cs ih =>
    intro i h
    simp only [findIdxBy] at h
    by_cases hp : isPrefixBy eq t (c :: cs) = true
    · simp only [hp, if_true, Option.some.injEq] at h
      subst h
      rw [List.take_zero]
      simpa [containsBy] using isPrefixBy_nil_false htne
    · rw [if_neg hp] at h
      cases hj : findIdxBy eq t cs with
      | none => rw [hj] at h; simp at h
      | some j =>
        rw [hj] at h
        simp only [Option.map_some', Option.some.injEq] at h
        subst h
        simp only [List.take_succ_cons, containsBy, Bool.or_eq_false_iff]
        constructor
        · by_cases hq : isPrefixBy eq t (c :: cs.take j) = true
          · have hq' : isPrefixBy eq t ((c :: cs).take (j + 1)) = true := by
              simpa [List.take_succ_cons] using hq
            exact absurd (isPrefixBy_take hq') hp
          · simpa using hq
        · exact ih hj

theorem stripOrphan_not_contains {eq : Char → Char → Bool} {t : List Char}
    (htne : t ≠ []) (s : List Char) :
    containsBy eq t (stripOrphan eq t s) = false := by
  unfold stripOrphan
  cases h : findIdxBy eq t s with
  | none => exact not_contains_of_findIdxBy_none h
  | some i => exact findIdxBy_some_take htne h

theorem trimRight_prefix : ∀ s : List Char, trimRight s <+: s := by
  intro s
  induction s with
  | nil => exact List.prefix_refl _
  | cons c cs ih =>
    simp only [trimRight]
    cases h : trimRight cs with
    | nil =>
      by_cases hw : isPyWs c = true
      · simp [hw]
      · simp only [Bool.not_eq_true] at hw
        simp [hw, List.cons_prefix_cons]
    | cons r rs =>
      rw [h] at ih
      simpa [List.cons_prefix_cons] using ih

theorem trimLeft_suffix (s : List Char) : trimLeft s <:+ s :=
  List.dropWhile_suffix isPyWs

theorem pyStrip_infix (s : List Char) : pyStrip s <:+: s :=
  ((trimLeft_suffix (trimRight s)).isInfix).trans ( trimRight_prefix s).isInfix

theorem not_contains_pyStrip {eq : Char → Char → Bool} {t s : List Char}
    (h : containsBy eq t s = false) : containsBy eq t (pyStrip s) = false :=
  not_containsBy_infix h ( pyStrip_infix s)

theorem stripClosedOnce_id {eq : Char → Char → Bool} {o c : List Char}
    (h0 : o ≠ []) :
    ∀ {s : List Char}, containsBy eq o s = false → stripClosedOnce eq o c s = s := by
  intro s
  induction s with
  | nil => intro _; simp [stripClosedOnce]
  | cons ch cs ih =>
    intro h
    simp only [containsBy, Bool.or_eq_false_iff] at h
    unfold stripClosedOnce
    simp [h0, h.1, ih h.2]

theorem stripClosedAll_id {eq : Char → Char → Bool} {o c s : List Char}
    (h0 : o ≠ []) (h : containsBy eq o s = false) :
    stripClosedAll eq o c s = s := by
  have h1 : stripClosedOnce eq o c s = s := stripClosedOnce_id h0 h
  unfold stripClosedAll
  simp [h1]

theorem stripOrphan_id {eq : Char → Char → Bool} {t s : List Char}
    (h : containsBy eq t s = false) : stripOrphan eq t s = s := by
  unfold stripOrphan
  rw [findIdxBy_none_of_not_contains h]

/-- C2 counterexample: the store-personal extractor does not strip an
orphan opener — on `"hello [STORE_PERSONAL]{bad"` the stripped text is the
whole input, with the dangling `[STORE_PERSONAL]` span still present. -/
theorem store_personal_orphan_left_dangling :
    (extract_and_strip_store_personal decEx "hello [STORE_PERSONAL]\x7bbad".data).2 =
      "hello [STORE_PERSONAL]\x7bbad".data ∧
    containsBy ciEq storePersonalOpen
      (extract_and_strip_store_personal decEx "hello [STORE_PERSONAL]\x7bbad".data).2 =
      true := by
  have h : (extract_and_strip_store_personal decEx
      "hello [STORE_PERSONAL]\x7bbad".data).2 =
      "hello [STORE_PERSONAL]\x7bbad".data := by
    simp [extract_and_strip_store_personal, stripClosedOnce, isPrefixBy, findIdxBy,
      ciEq, pyStrip, trimLeft, trimRight, isPyWs, storePersonalOpen,
      storePersonalClose]
  exact ⟨h, by rw [h]; decide⟩

/-- C2 amended: only the session-data extractor strips orphan spans: its
stripped output never contains a `[SESSION_DATA]` opener (closed blocks
are removed by the iterated pass and an unclosed opener is cut to
end-of-text), and on `"hello [SESSION_DATA]{bad json"` it returns the
empty payload with stripped text `"hello"`.  The store-personal and
store-preference extractors leave an unclosed opener in place (it is only
removed later by the user-facing sanitizer). -/
theorem session_extractor_never_leaves_opener :
    (∀ (V : Type) (dec : List Char → Option (Dict V)) (raw : List Char),
       containsBy ciEq sessionOpen (extract_and_strip_session_data dec raw).2 = false) ∧
    extract_and_strip_session_data decEx "hello [SESSION_DATA]\x7bbad json".data =
      (([] : Dict String), "hello".data) := by
  constructor
  · intro V dec raw
    have h1 : containsBy ciEq sessionOpen
        (stripOrphan ciEq sessionOpen
          (stripClosedAll ciEq sessionOpen sessionClose raw)) = false :=
      stripOrphan_not_contains (by decide) _
    exact not_contains_pyStrip h1
  · simp [extract_and_strip_session_data, scanPayload, stripClosedAll,
      stripClosedOnce, stripOrphan, isPrefixBy, findIdxBy, ciEq, pyStrip,
      trimLeft, trimRight, isPyWs, sessionOpen, sessionClose]

/-! ## Scanning over a single well-formed block

These lemmas compute the extractors on texts of the shape
`pre ++ open ++ mid ++ close ++ post` where `pre`, `mid` and `post`
contain no character matching the `[` that begins every tag. -/

theorem csEq_false_of_ciEq_false {a b : Char} (h : ciEq a b = false) :
    csEq a b = false := by
  by_contra hc
  simp only [Bool.not_eq_false] at hc
  have hab : a = b := by simpa [csEq] using hc
  subst hab
  simp [ciEq] at h

theorem eqListBy_length {eq : Char → Char → Bool} :
    ∀ {t u : List Char}, eqListBy eq t u = true → t.length = u.length := by
  intro t
  induction t with
  | nil => intro u h; cases u with
    | nil => rfl
    | cons b bs => simp [eqListBy] at h
  | cons a as ih =>
    intro u h
    cases u with
    | nil => simp [eqListBy] at h
    | cons b bs =>
      simp only [eqListBy, Bool.and_eq_true] at h
      simp [List.length_cons, ih h.2]

theorem isPrefixBy_of_eqList {eq : Char → Char → Bool} :
    ∀ {t u : List Char} (v : List Char),
      eqListBy eq t u = true → isPrefixBy eq t (u ++ v) = true := by
  intro t
  induction t with
  | nil => intro u v _; rfl
  | cons a as ih =>
    intro u v h
    cases u with
    | nil => simp [eqListBy] at h
    | cons b bs =>
      simp only [eqListBy, Bool.and_eq_true] at h
      simp only [List.cons_append, isPrefixBy, Bool.and_eq_true]
      exact ⟨h.1, ih v h.2⟩

theorem isPrefixBy_append_false {eq : Char → Char → Bool} :
    ∀ {t u : List Char} (v : List Char),
      isPrefixBy eq t u = false → t.length ≤ u.length →
      isPrefixBy eq t (u ++ v) = false := by
  intro t
  induction t with
  | nil => intro u v h _; simp [isPrefixBy] at h
  | cons a as ih =>
    intro u v h hlen
    cases u with
    | nil => simp at hlen
    | cons b bs =>
      simp only [isPrefixBy, Bool.and_eq_false_iff] at h
      simp only [List.cons_append, isPrefixBy, Bool.and_eq_false_iff]
      rcases h with h | h
      · exact Or.inl h
      · exact Or.inr (ih v h (by simpa [Nat.succ_le_succ_iff] using hlen))

theorem not_contains_of_all_head {eq : Char → Char → Bool} {th : Char}
    {t'' : List Char} :
    ∀ {s : List Char}, (∀ ch ∈ s, eq th ch = false) →
      containsBy eq (th :: t'') s = false := by
  intro s
  induction s with
  | nil => intro _; rfl
  | cons ch cs ih =>
    intro h
    have hch : eq th ch = false := h ch (by simp)
    simp [containsBy, isPrefixBy, hch, ih (fun x hx => h x (by simp [hx]))]

theorem not_contains_append_of {eq : Char → Char → Bool} {th : Char}
    {t'' : List Char} :
    ∀ {a b : List Char}, (∀ ch ∈ a, eq th ch = false) →
      containsBy eq (th :: t'') b = false →
      containsBy eq (th :: t'') (a ++ b) = false := by
  intro a
  induction a with
  | nil => intro b _ hb; exact hb
  | cons ch cs ih =>
    intro b h hb
    have hch : eq th ch = false := h ch (by simp)
    simp [containsBy, isPrefixBy, hch, ih (fun x hx => h x (by simp [hx])) hb]

theorem not_contains_cons_append {eq : Char → Char → Bool} {tt : List Char}
    {uh : Char} {ut rest : List Char}
    (h1 : isPrefixBy eq tt ((uh :: ut) ++ rest) = false)
    (h2 : containsBy eq tt (ut ++ rest) = false) :
    containsBy eq tt ((uh :: ut) ++ rest) = false := by
  simp only [List.cons_append] at h1 ⊢
  simp [containsBy, h1, h2]

theorem scanPayload_cons_no_match {V : Type} {eq : Char → Char → Bool}
    {t' cT : List Char} {dec : List Char → Option (Dict V)} {acc : Dict V}
    {ch : Char} {cs : List Char} (hch : eq '[' ch = false) :
    scanPayload eq ('[' :: t') cT dec acc (ch :: cs) =
      scanPayload eq ('[' :: t') cT dec acc cs := by
  conv_lhs => unfold scanPayload
  simp [isPrefixBy, hch]

theorem scanPayload_skip {V : Type} {eq : Char → Char → Bool} {t' cT : List Char}
    {dec : List Char → Option (Dict V)} :
    ∀ {pre : List Char} (rest : List Char) (acc : Dict V),
      (∀ ch ∈ pre, eq '[' ch = false) →
      scanPayload eq ('[' :: t') cT dec acc (pre ++ rest) =
        scanPayload eq ('[' :: t') cT dec acc rest := by
  intro pre
  induction pre with
  | nil => intro rest acc _; rfl
  | cons ch pre' ih =>
    intro rest acc h
    have hch : eq '[' ch = false := h ch (by simp)
    rw [List.cons_append, scanPayload_cons_no_match hch]
    exact ih rest acc (fun x hx => h x (by simp [hx]))

theorem scanPayload_id_of_not_contains {V : Type} {eq : Char → Char → Bool}
    {o cT : List Char} {dec : List Char → Option (Dict V)} (h0 : o ≠ []) :
    ∀ {s : List Char} (acc : Dict V), containsBy eq o s = false →
      scanPayload eq o cT dec acc s = acc := by
  intro s
  induction s with
  | nil => intro acc _; simp [scanPayload]
  | cons ch cs ih =>
    intro acc h
    simp only [containsBy, Bool.or_eq_false_iff] at h
    unfold scanPayload
    simp [h0, h.1, ih acc h.2]

theorem stripClosedOnce_cons_no_match {eq : Char → Char → Bool}
    {t' cT : List Char} {ch : Char} {cs : List Char} (hch : eq '[' ch = false) :
    stripClosedOnce eq ('[' :: t') cT (ch :: cs) =
      ch :: stripClosedOnce eq ('[' :: t') cT cs := by
  conv_lhs => unfold stripClosedOnce
  simp [isPrefixBy, hch]

theorem stripClosedOnce_skip {eq : Char → Char → Bool} {t' cT : List Char} :
    ∀ {pre : List Char} (rest : List Char),
      (∀ ch ∈ pre, eq '[' ch = false) →
      stripClosedOnce eq ('[' :: t') cT (pre ++ rest) =
        pre ++ stripClosedOnce eq ('[' :: t') cT rest := by
  intro pre
  induction pre with
  | nil => intro rest _; rfl
  | cons ch pre' ih =>
    intro rest h
    have hch : eq '[' ch = false := h ch (by simp)
    rw [List.cons_append, stripClosedOnce_cons_no_match hch,
      ih rest (fun x hx => h x (by simp [hx]))]
    rfl

theorem findIdxBy_cons_no_match {eq : Char → Char → Bool} {th : Char}
    {t'' : List Char} {ch : Char} {cs : List Char} (hch : eq th ch = false) :
    findIdxBy eq (th :: t'') (ch :: cs) =
      (findIdxBy eq (th :: t'') cs).map (· + 1) := by
  simp [findIdxBy, isPrefixBy, hch]

theorem findIdxBy_skip {eq : Char → Char → Bool} {th : Char} {t'' : List Char} :
    ∀ {pre : List Char} (rest : List Char),
      (∀ ch ∈ pre, eq th ch = false) →
      findIdxBy eq (th :: t'') (pre ++ rest) =
        match findIdxBy eq (th :: t'') rest with
        | some j => some (pre.length + j)
        | none => none := by
  intro pre
  induction pre with
  | nil =>
    intro rest _
    cases h : findIdxBy eq (th :: t'') rest <;> simp [h]
  | cons ch pre' ih =>
    intro rest h
    have hch : eq th ch = false := h ch (by simp)
    rw [List.cons_append, findIdxBy_cons_no_match hch,
      ih rest (fun x hx => h x (by simp [hx]))]
    cases h2 : findIdxBy eq (th :: t'') rest with
    | none => rfl
    | some j => simp [List.length_cons]; omega

theorem take_len {α : Type} : ∀ (a b : List α), (a ++ b).take a.length = a := by
  intro a
  induction a with
  | nil => intro b; rfl
  | cons x xs ih => intro b; simp [List.take_succ_cons, ih b]

theorem drop_len_add {α : Type} :
    ∀ (a b : List α) (n : Nat), (a ++ b).drop (a.length + n) = b.drop n := by
  intro a
  induction a with
  | nil => intro b n; simp
  | cons x xs ih =>
    intro b n
    have harith : xs.length + 1 + n = (xs.length + n) + 1 := by omega
    simp only [List.cons_append, List.length_cons, harith, List.drop_succ_cons]
    exact ih b n

theorem drop_len {α : Type} (a b : List α) : (a ++ b).drop a.length = b := by
  have h := drop_len_add a b 0
  simpa using h

theorem scanPayload_at_block {V : Type} {eq : Char → Char → Bool}
    {t' ct' : List Char} {dec : List Char → Option (Dict V)}
    {o mid c post : List Char} (acc : Dict V)
    (ho : eqListBy eq ('[' :: t') o = true)
    (hc : eqListBy eq ('[' :: ct') c = true)
    (hmid : ∀ ch ∈ mid, eq '[' ch = false)
    (hpost : ∀ ch ∈ post, eq '[' ch = false) :
    scanPayload eq ('[' :: t') ('[' :: ct') dec acc (o ++ mid ++ c ++ post) =
      (match dec (pyStrip mid) with
       | some d => dictUpdate acc d
       | none => acc) := by
  have hlen_o : ('[' :: t').length = o.length := eqListBy_length ho
  have hlen_c : ('[' :: ct').length = c.length := eqListBy_length hc
  cases o with
  | nil => simp [eqListBy] at ho
  | cons oh ot =>
    cases c with
    | nil => simp [eqListBy] at hc
    | cons chh ct =>
      simp only [List.append_assoc, List.cons_append]
      conv_lhs => unfold scanPayload
      have hpr : isPrefixBy eq ('[' :: t')
          (oh :: (ot ++ (mid ++ chh :: (ct ++ post)))) = true := by
        have := isPrefixBy_of_eqList (mid ++ chh :: (ct ++ post)) ho
        simpa using this
      rw [dif_neg (show ¬('[' :: t') = [] from by simp), if_pos hpr]
      have hrw : List.drop ('[' :: t').length
          (oh :: (ot ++ (mid ++ chh :: (ct ++ post)))) =
          mid ++ chh :: (ct ++ post) := by
        have h2 := drop_len (oh :: ot) (mid ++ chh :: (ct ++ post))
        rw [hlen_o]
        simpa using h2
      rw [hrw]
      have hfind0 : findIdxBy eq ('[' :: ct') (chh :: (ct ++ post)) = some 0 := by
        have hpc : isPrefixBy eq ('[' :: ct') ((chh :: ct) ++ post) = true :=
          isPrefixBy_of_eqList post hc
        simp only [List.cons_append] at hpc
        simp [findIdxBy, hpc]
      have hfind : findIdxBy eq ('[' :: ct') (mid ++ chh :: (ct ++ post)) =
          some (mid.length + 0) := by
        rw [findIdxBy_skip _ hmid]
        rw [hfind0]
      rw [hfind]
      dsimp only
      have htake : (mid ++ chh :: (ct ++ post)).take (mid.length + 0) = mid := by
        have h2 := take_len mid (chh :: (ct ++ post))
        simpa using h2
      have hdrop2 : (mid ++ chh :: (ct ++ post)).drop
          (mid.length + 0 + ('[' :: ct').length) = post := by
        have h1 : mid.length + 0 + ('[' :: ct').length =
            mid.length + (chh :: ct).length := by
          rw [hlen_c]; omega
        rw [h1, drop_len_add]
        have h2 := drop_len (chh :: ct) post
        simpa using h2
      rw [htake, hdrop2]
      exact scanPayload_id_of_not_contains (by simp) _
        (not_contains_of_all_head hpost)

theorem stripClosedOnce_at_block {eq : Char → Char → Bool}
    {t' ct' : List Char} {o mid c post : List Char}
    (ho : eqListBy eq ('[' :: t') o = true)
    (hc : eqListBy eq ('[' :: ct') c = true)
    (hmid : ∀ ch ∈ mid, eq '[' ch = false)
    (hpost : ∀ ch ∈ post, eq '[' ch = false) :
    stripClosedOnce eq ('[' :: t') ('[' :: ct') (o ++ mid ++ c ++ post) = post := by
  have hlen_o : ('[' :: t').length = o.length := eqListBy_length ho
  have hlen_c : ('[' :: ct').length = c.length := eqListBy_length hc
  cases o with
  | nil => simp [eqListBy] at ho
  | cons oh ot =>
    cases c with
    | nil => simp [eqListBy] at hc
    | cons chh ct =>
      simp only [List.append_assoc, List.cons_append]
      conv_lhs => unfold stripClosedOnce
      have hpr : isPrefixBy eq ('[' :: t')
          (oh :: (ot ++ (mid ++ chh :: (ct ++ post)))) = true := by
        have := isPrefixBy_of_eqList (mid ++ chh :: (ct ++ post)) ho
        simpa using this
      rw [dif_neg (show ¬('[' :: t') = [] from by simp), if_pos hpr]
      have hrw : List.drop ('[' :: t').length
          (oh :: (ot ++ (mid ++ chh :: (ct ++ post)))) =
          mid ++ chh :: (ct ++ post) := by
        have h2 := drop_len (oh :: ot) (mid ++ chh :: (ct ++ post))
        rw [hlen_o]
        simpa using h2
      rw [hrw]
      have hfind0 : findIdxBy eq ('[' :: ct') (chh :: (ct ++ post)) = some 0 := by
        have hpc : isPrefixBy eq ('[' :: ct') ((chh :: ct) ++ post) = true :=
          isPrefixBy_of_eqList post hc
        simp only [List.cons_append] at hpc
        simp [findIdxBy, hpc]
      have hfind : findIdxBy eq ('[' :: ct') (mid ++ chh :: (ct ++ post)) =
          some (mid.length + 0) := by
        rw [findIdxBy_skip _ hmid]
        rw [hfind0]
      rw [hfind]
      dsimp only
      have hdrop2 : (mid ++ chh :: (ct ++ post)).drop
          (mid.length + 0 + ('[' :: ct').length) = post := by
        have h1 : mid.length + 0 + ('[' :: ct').length =
            mid.length + (chh :: ct).length := by
          rw [hlen_c]; omega
        rw [h1, drop_len_add]
        have h2 := drop_len (chh :: ct) post
        simpa using h2
      rw [hdrop2]
      exact stripClosedOnce_id (by simp) (not_contains_of_all_head hpost)

theorem scan_pre_block {V : Type} {eq : Char → Char → Bool}
    {t' ct' : List Char} {dec : List Char → Option (Dict V)}
    {pre o mid c post : List Char}
    (hpre : ∀ ch ∈ pre, eq '[' ch = false)
    (ho : eqListBy eq ('[' :: t') o = true)
    (hc : eqListBy eq ('[' :: ct') c = true)
    (hmid : ∀ ch ∈ mid, eq '[' ch = false)
    (hpost : ∀ ch ∈ post, eq '[' ch = false) :
    scanPayload eq ('[' :: t') ('[' :: ct') dec [] (pre ++ o ++ mid ++ c ++ post) =
      payloadOne dec mid := by
  have hin : pre ++ o ++ mid ++ c ++ post = pre ++ (o ++ mid ++ c ++ post) := by
    simp [List.append_assoc]
  rw [hin, scanPayload_skip _ _ hpre, scanPayload_at_block [] ho hc hmid hpost]
  rfl

theorem strip_pipeline_block {eq : Char → Char → Bool}
    {t' ct' : List Char} {pre o mid c post : List Char}
    (hpre : ∀ ch ∈ pre, eq '[' ch = false)
    (ho : eqListBy eq ('[' :: t') o = true)
    (hc : eqListBy eq ('[' :: ct') c = true)
    (hmid : ∀ ch ∈ mid, eq '[' ch = false)
    (hpost : ∀ ch ∈ post, eq '[' ch = false) :
    stripClosedOnce eq ('[' :: t') ('[' :: ct') (pre ++ o ++ mid ++ c ++ post) =
      pre ++ post ∧
    stripClosedAll eq ('[' :: t') ('[' :: ct') (pre ++ o ++ mid ++ c ++ post) =
      pre ++ post ∧
    stripOrphan eq ('[' :: t') (pre ++ post) = pre ++ post := by
  have hnc : containsBy eq ('[' :: t') (pre ++ post) = false :=
    not_contains_append_of hpre (not_contains_of_all_head hpost)
  have hin : pre ++ o ++ mid ++ c ++ post = pre ++ (o ++ mid ++ c ++ post) := by
    simp [List.append_assoc]
  have honce : stripClosedOnce eq ('[' :: t') ('[' :: ct')
      (pre ++ o ++ mid ++ c ++ post) = pre ++ post := by
    rw [hin, stripClosedOnce_skip _ hpre,
      stripClosedOnce_at_block ho hc hmid hpost]
  refine ⟨honce, ?_, stripOrphan_id hnc⟩
  have hlen_o : ('[' :: t').length = o.length := eqListBy_length ho
  have hlt : (pre ++ post).length <
      (pre ++ o ++ mid ++ c ++ post).length := by
    simp only [List.length_append]
    have : 0 < o.length := by rw [← hlen_o]; simp
    omega
  conv_lhs => unfold stripClosedAll
  rw [honce]
  simp only [hlt, if_true]
  exact stripClosedAll_id (by simp) hnc

theorem not_contains_fake_block {eq : Char → Char → Bool} {t'' : List Char}
    {pre mid post : List Char} {uh vh : Char} {ut vt : List Char}
    (hpre : ∀ ch ∈ pre, eq '[' ch = false)
    (hmid : ∀ ch ∈ mid, eq '[' ch = false)
    (hpost : ∀ ch ∈ post, eq '[' ch = false)
    (hut : ∀ ch ∈ ut, eq '[' ch = false)
    (hvt : ∀ ch ∈ vt, eq '[' ch = false)
    (hu : isPrefixBy eq ('[' :: t'') (uh :: ut) = false)
    (hulen : ('[' :: t'').length ≤ (uh :: ut).length)
    (hv : isPrefixBy eq ('[' :: t'') (vh :: vt) = false)
    (hvlen : ('[' :: t'').length ≤ (vh :: vt).length) :
    containsBy eq ('[' :: t'')
      (pre ++ (uh :: ut) ++ mid ++ (vh :: vt) ++ post) = false := by
  have h5 : containsBy eq ('[' :: t'') ((vh :: vt) ++ post) = false := by
    apply not_contains_cons_append
    · exact isPrefixBy_append_false post hv hvlen
    · exact not_contains_append_of hvt (not_contains_of_all_head hpost)
  have h4 : containsBy eq ('[' :: t'') (mid ++ ((vh :: vt) ++ post)) = false :=
    not_contains_append_of hmid h5
  have h3 : containsBy eq ('[' :: t'')
      ((uh :: ut) ++ (mid ++ ((vh :: vt) ++ post))) = false := by
    apply not_contains_cons_append
    · exact isPrefixBy_append_false _ hu hulen
    · exact not_contains_append_of hut h4
  have h2 := not_contains_append_of hpre h3
  have hshape : pre ++ ((uh :: ut) ++ (mid ++ ((vh :: vt) ++ post))) =
      pre ++ (uh :: ut) ++ mid ++ (vh :: vt) ++ post := by
    simp [List.append_assoc]
  rw [hshape] at h2
  exact h2

/-- C1 counterexample: a lowercase-tagged `[store_personal]` block is
stripped (case-insensitive strip pattern) but its payload is NOT captured
(case-sensitive extraction pattern), while the uppercase-tagged block is
both captured and stripped. -/
theorem store_personal_lowercase_not_captured :
    extract_and_strip_store_personal decEx
        "[store_personal]\x7b\x22a\x22:1\x7d[/store_personal]".data =
      (([] : Dict String), []) ∧
    extract_and_strip_store_personal decEx
        "[STORE_PERSONAL]\x7b\x22a\x22:1\x7d[/STORE_PERSONAL]".data =
      ([("a", "1")], []) := by
  constructor
  · simp [extract_and_strip_store_personal, scanPayload, stripClosedOnce,
      isPrefixBy, findIdxBy, csEq, ciEq, pyStrip, trimLeft, trimRight, isPyWs,
      decEx, dictUpdate, insertKV, storePersonalOpen, storePersonalClose]
  · simp [extract_and_strip_store_personal, scanPayload, stripClosedOnce,
      isPrefixBy, findIdxBy, csEq, ciEq, pyStrip, trimLeft, trimRight, isPyWs,
      decEx, dictUpdate, insertKV, storePersonalOpen, storePersonalClose]

/-- C1 amended: stripping is case-insensitive for all three marker kinds,
and for SESSION_DATA the payload extraction is case-insensitive too: on a
single block written with ANY case variant of the session tags the
extractor captures the payload and removes the span.  For STORE_PERSONAL
and STORE_PREFERENCE the payload extraction is case-sensitive: a
lowercase-tagged block is stripped but contributes an empty payload,
while the exact (uppercase) tags are captured and stripped. -/
theorem marker_tag_case_sensitivity :
    (∀ (V : Type) (dec : List Char → Option (Dict V)) (o c pre mid post : List Char),
       eqListBy ciEq sessionOpen o = true →
       eqListBy ciEq sessionClose c = true →
       (∀ ch ∈ pre, ciEq '[' ch = false) →
       (∀ ch ∈ mid, ciEq '[' ch = false) →
       (∀ ch ∈ post, ciEq '[' ch = false) →
       extract_and_strip_session_data dec (pre ++ o ++ mid ++ c ++ post) =
         (payloadOne dec mid, pyStrip (pre ++ post))) ∧
    (∀ (V : Type) (dec : List Char → Option (Dict V)) (pre mid post : List Char),
       (∀ ch ∈ pre, ciEq '[' ch = false) →
       (∀ ch ∈ mid, ciEq '[' ch = false) →
       (∀ ch ∈ post, ciEq '[' ch = false) →
       extract_and_strip_store_personal dec
           (pre ++ lowerL storePersonalOpen ++ mid ++
             lowerL storePersonalClose ++ post) =
         (([] : Dict V), pyStrip (pre ++ post)) ∧
       extract_and_strip_store_personal dec
           (pre ++ storePersonalOpen ++ mid ++ storePersonalClose ++ post) =
         (payloadOne dec mid, pyStrip (pre ++ post))) ∧
    (∀ (V : Type) (dec : List Char → Option (Dict V)) (pre mid post : List Char),
       (∀ ch ∈ pre, ciEq '[' ch = false) →
       (∀ ch ∈ mid, ciEq '[' ch = false) →
       (∀ ch ∈ post, ciEq '[' ch = false) →
       extract_and_strip_store_preference dec
           (pre ++ lowerL storePreferenceOpen ++ mid ++
             lowerL storePreferenceClose ++ post) =
         (([] : Dict V), pyStrip (pre ++ post)) ∧
       extract_and_strip_store_preference dec
           (pre ++ storePreferenceOpen ++ mid ++ storePreferenceClose ++ post) =
         (payloadOne dec mid, pyStrip (pre ++ post))) := by
  refine ⟨?_, ?_, ?_⟩
  · -- SESSION_DATA: any case variant of the tags
    intro V dec o c pre mid post ho hc hpre hmid hpost
    have hso : sessionOpen = '[' :: sessionOpen.tail := by decide
    have hsc : sessionClose = '[' :: sessionClose.tail := by decide
    have ho' : eqListBy ciEq ('[' :: sessionOpen.tail) o = true := by
      rw [← hso]; exact ho
    have hc' : eqListBy ciEq ('[' :: sessionClose.tail) c = true := by
      rw [← hsc]; exact hc
    have hscan : scanPayload ciEq sessionOpen sessionClose dec []
        (pre ++ o ++ mid ++ c ++ post) = payloadOne dec mid := by
      rw [hso, hsc]
      exact scan_pre_block hpre ho' hc' hmid hpost
    obtain ⟨h1, h2, h3⟩ := strip_pipeline_block hpre ho' hc' hmid hpost
    have hstrip : stripOrphan ciEq sessionOpen
        (stripClosedAll ciEq sessionOpen sessionClose
          (pre ++ o ++ mid ++ c ++ post)) = pre ++ post := by
      rw [hso, hsc, h2, h3]
    unfold extract_and_strip_session_data
    rw [hscan, hstrip]
  · -- STORE_PERSONAL
    intro V dec pre mid post hpre hmid hpost
    have hspo : storePersonalOpen = '[' :: storePersonalOpen.tail := by decide
    have hspc : storePersonalClose = '[' :: storePersonalClose.tail := by decide
    have hpre' : ∀ ch ∈ pre, csEq '[' ch = false :=
      fun ch h => csEq_false_of_ciEq_false (hpre ch h)
    have hmid' : ∀ ch ∈ mid, csEq '[' ch = false :=
      fun ch h => csEq_false_of_ciEq_false (hmid ch h)
    have hpost' : ∀ ch ∈ post, csEq '[' ch = false :=
      fun ch h => csEq_false_of_ciEq_false (hpost ch h)
    constructor
    · -- lowercase tags: nothing captured, span stripped
      have hscan : scanPayload csEq storePersonalOpen storePersonalClose dec []
          (pre ++ lowerL storePersonalOpen ++ mid ++
            lowerL storePersonalClose ++ post) = [] := by
        apply scanPayload_id_of_not_contains (by decide)
        rw [hspo, hspc]
        rw [show lowerL ('[' :: storePersonalOpen.tail) =
              '[' :: lowerL storePersonalOpen.tail from by decide]
        rw [show lowerL ('[' :: storePersonalClose.tail) =
              '[' :: lowerL storePersonalClose.tail from by decide]
        exact not_contains_fake_block hpre' hmid' hpost' (by decide) (by decide)
          (by decide) (by decide) (by decide) (by decide)
      have hstrip : stripClosedOnce ciEq storePersonalOpen storePersonalClose
          (pre ++ lowerL storePersonalOpen ++ mid ++
            lowerL storePersonalClose ++ post) = pre ++ post := by
        rw [hspo, hspc]
        exact (strip_pipeline_block hpre (by decide) (by decide) hmid hpost).1
      unfold extract_and_strip_store_personal
      rw [hscan, hstrip]
    · -- uppercase tags: captured and stripped
      have hscan : scanPayload csEq storePersonalOpen storePersonalClose dec []
          (pre ++ storePersonalOpen ++ mid ++ storePersonalClose ++ post) =
          payloadOne dec mid := by
        rw [hspo, hspc]
        exact scan_pre_block hpre' (by decide) (by decide) hmid' hpost'
      have hstrip : stripClosedOnce ciEq storePersonalOpen storePersonalClose
          (pre ++ storePersonalOpen ++ mid ++ storePersonalClose ++ post) =
          pre ++ post := by
        rw [hspo, hspc]
        exact (strip_pipeline_block hpre (by decide) (by decide) hmid hpost).1
      unfold extract_and_strip_store_personal
      rw [hscan, hstrip]
  · -- STORE_PREFERENCE
    intro V dec pre mid post hpre hmid hpost
    have hspo : storePreferenceOpen = '[' :: storePreferenceOpen.tail := by decide
    have hspc : storePreferenceClose = '[' :: storePreferenceClose.tail := by decide
    have hpre' : ∀ ch ∈ pre, csEq '[' ch = false :=
      fun ch h => csEq_false_of_ciEq_false (hpre ch h)
    have hmid' : ∀ ch ∈ mid, csEq '[' ch = false :=
      fun ch h => csEq_false_of_ciEq_false (hmid ch h)
    have hpost' : ∀ ch ∈ post, csEq '[' ch = false :=
      fun ch h => csEq_false_of_ciEq_false (hpost ch h)
    constructor
    · have hscan : scanPayload csEq storePreferenceOpen storePreferenceClose dec []
          (pre ++ lowerL storePreferenceOpen ++ mid ++
            lowerL storePreferenceClose ++ post) = [] := by
        apply scanPayload_id_of_not_contains (by decide)
        rw [hspo, hspc]
        rw [show lowerL ('[' :: storePreferenceOpen.tail) =
              '[' :: lowerL storePreferenceOpen.tail from by decide]
        rw [show lowerL ('[' :: storePreferenceClose.tail) =
              '[' :: lowerL storePreferenceClose.tail from by decide]
        exact not_contains_fake_block hpre' hmid' hpost' (by decide) (by decide)
          (by decide) (by decide) (by decide) (by decide)
      have hstrip : stripClosedOnce ciEq storePreferenceOpen storePreferenceClose
          (pre ++ lowerL storePreferenceOpen ++ mid ++
            lowerL storePreferenceClose ++ post) = pre ++ post := by
        rw [hspo, hspc]
        exact (strip_pipeline_block hpre (by decide) (by decide) hmid hpost).1
      unfold extract_and_strip_store_preference
      rw [hscan, hstrip]
    · have hscan : scanPayload csEq storePreferenceOpen storePreferenceClose dec []
          (pre ++ storePreferenceOpen ++ mid ++ storePreferenceClose ++ post) =
          payloadOne dec mid := by
        rw [hspo, hspc]
        exact scan_pre_block hpre' (by decide) (by decide) hmid' hpost'
      have hstrip : stripClosedOnce ciEq storePreferenceOpen storePreferenceClose
          (pre ++ storePreferenceOpen ++ mid ++ storePreferenceClose ++ post) =
          pre ++ post := by
        rw [hspo, hspc]
        exact (strip_pipeline_block hpre (by decide) (by decide) hmid hpost).1
      unfold extract_and_strip_store_preference
      rw [hscan, hstrip]

/-- Witness for C1: a mixed-case session block between bracket-free text is
captured and stripped exactly like the uppercase one. -/
theorem marker_tag_case_sensitivity_witness :
    extract_and_strip_session_data decEx
        ("x ".data ++ "[sEsSiOn_dAtA]".data ++ "\x7b\x22a\x22:1\x7d".data ++
          "[/session_DATA]".data ++ " y".data) =
      ([("a", "1")], "x  y".data) := by
  have h := marker_tag_case_sensitivity.1 String decEx
    "[sEsSiOn_dAtA]".data "[/session_DATA]".data "x ".data
    "\x7b\x22a\x22:1\x7d".data " y".data
    (by decide) (by decide) (by decide) (by decide) (by decide)
  rw [h]
  decide

/-! ## Line structure of `splitOnNl` / `joinNl` -/

theorem splitOnNl_ne_nil : ∀ s : List Char, splitOnNl s ≠ [] := by
  intro s
  cases s with
  | nil => simp [splitOnNl]
  | cons c cs =>
    by_cases hc : c = '\n'
    · simp [splitOnNl, hc]
    · simp only [splitOnNl, hc, if_false]
      cases splitOnNl cs <;> simp

theorem infix_cons_of_infix {m cs : List Char} (c : Char) (h : m <:+: cs) :
    m <:+: c :: cs :=
  h.trans (List.suffix_cons c cs).isInfix

theorem splitOnNl_structure :
    ∀ (s : List Char) (h : List Char) (t : List (List Char)),
      splitOnNl s = h :: t → (h <+: s ∧ ∀ l ∈ t, l <:+: s) := by
  intro s
  induction s with
  | nil =>
    intro h t he
    simp only [splitOnNl, List.cons.injEq] at he
    rw [← he.1, ← he.2]
    exact ⟨List.nil_prefix, by simp⟩
  | cons c cs ih =>
    intro h t he
    by_cases hc : c = '\n'
    · subst hc
      simp only [splitOnNl, if_true, List.cons.injEq] at he
      rw [← he.1, ← he.2]
      refine ⟨List.nil_prefix, ?_⟩
      intro l hl
      cases hsp : splitOnNl cs with
      | nil => exact absurd hsp (splitOnNl_ne_nil cs)
      | cons h0 t0 =>
        rw [hsp] at hl
        rcases List.mem_cons.mp hl with heq | hl0
        · rw [heq]; exact infix_cons_of_infix _ ((ih h0 t0 hsp).1.isInfix)
        · exact infix_cons_of_infix _ ((ih h0 t0 hsp).2 l hl0)
    · cases hsp : splitOnNl cs with
      | nil => exact absurd hsp (splitOnNl_ne_nil cs)
      | cons h0 t0 =>
        simp only [splitOnNl, hc, if_false, hsp, List.cons.injEq] at he
        rw [← he.1, ← he.2]
        refine ⟨List.cons_prefix_cons.mpr ⟨rfl, (ih h0 t0 hsp).1⟩, ?_⟩
        intro l hl
        exact infix_cons_of_infix _ ((ih h0 t0 hsp).2 l hl)

theorem mem_splitOnNl_infix {l : List Char} {s : List Char}
    (h : l ∈ splitOnNl s) : l <:+: s := by
  cases hsp : splitOnNl s with
  | nil => exact absurd hsp (splitOnNl_ne_nil s)
  | cons h0 t0 =>
    rw [hsp] at h
    rcases List.mem_cons.mp h with heq | hl
    · rw [heq]; exact (splitOnNl_structure s h0 t0 hsp).1.isInfix
    · exact (splitOnNl_structure s h0 t0 hsp).2 l hl

theorem lines_no_nl : ∀ (s : List Char), ∀ l ∈ splitOnNl s, '\n' ∉ l := by
  intro s
  induction s with
  | nil =>
    intro l hl
    simp only [splitOnNl, List.mem_singleton] at hl
    subst hl
    simp
  | cons c cs ih =>
    intro l hl
    by_cases hc : c = '\n'
    · subst hc
      simp only [splitOnNl, if_true] at hl
      rcases List.mem_cons.mp hl with rfl | hl0
      · simp
      · exact ih l hl0
    · cases hsp : splitOnNl cs with
      | nil => exact absurd hsp (splitOnNl_ne_nil cs)
      | cons h0 t0 =>
        simp only [splitOnNl, hc, if_false, hsp] at hl
        rcases List.mem_cons.mp hl with rfl | hl0
        · intro hmem
          rcases List.mem_cons.mp hmem with he | hmem0
          · exact hc he.symm
          · exact ih h0 (by rw [hsp]; exact List.mem_cons_self h0 t0) hmem0
        · exact ih l (by rw [hsp]; exact List.mem_cons_of_mem h0 hl0)

theorem joinNl_splitOnNl : ∀ s : List Char, joinNl (splitOnNl s) = s := by
  intro s
  induction s with
  | nil => rfl
  | cons c cs ih =>
    by_cases hc : c = '\n'
    · subst hc
      simp only [splitOnNl, if_true]
      cases hsp : splitOnNl cs with
      | nil => exact absurd hsp (splitOnNl_ne_nil cs)
      | cons h0 t0 =>
        rw [hsp] at ih
        simpa [joinNl] using ih
    · simp only [splitOnNl, hc, if_false]
      cases hsp : splitOnNl cs with
      | nil => exact absurd hsp (splitOnNl_ne_nil cs)
      | cons h0 t0 =>
        rw [hsp] at ih
        cases t0 with
        | nil => simpa [joinNl] using ih
        | cons t1 ts => simpa [joinNl] using ih

theorem splitOnNl_of_no_nl : ∀ {l : List Char}, '\n' ∉ l → splitOnNl l = [l] := by
  intro l
  induction l with
  | nil => intro _; rfl
  | cons c cs ih =>
    intro h
    have hc : c ≠ '\n' := fun he => h (he ▸ List.mem_cons_self c cs)
    have hcs : '\n' ∉ cs := fun hm => h (List.mem_cons_of_mem c hm)
    simp only [splitOnNl, hc, if_false, ih hcs]

theorem splitOnNl_append_nl {l rest : List Char} (h : '\n' ∉ l) :
    splitOnNl (l ++ '\n' :: rest) = l :: splitOnNl rest := by
  induction l with
  | nil => simp [splitOnNl]
  | cons c cs ih =>
    have hc : c ≠ '\n' := fun he => h (he ▸ List.mem_cons_self c cs)
    have hcs : '\n' ∉ cs := fun hm => h (List.mem_cons_of_mem c hm)
    simp only [List.cons_append, splitOnNl, hc, if_false, List.append_eq]
    rw [ih hcs]

theorem splitOnNl_joinNl :
    ∀ (ls : List (List Char)), ls ≠ [] → (∀ l ∈ ls, '\n' ∉ l) →
      splitOnNl (joinNl ls) = ls := by
  intro ls
  induction ls with
  | nil => intro h _; exact absurd rfl h
  | cons l ls ih =>
    intro _ hnl
    cases ls with
    | nil =>
      simp only [joinNl]
      exact splitOnNl_of_no_nl (hnl l (by simp))
    | cons l1 ls1 =>
      have hjoin : joinNl (l :: l1 :: ls1) = l ++ '\n' :: joinNl (l1 :: ls1) := rfl
      rw [hjoin, splitOnNl_append_nl (hnl l (by simp)),
        ih (by simp) (fun x hx => hnl x (by simp [hx]))]

theorem splitOnNl_append :
    ∀ (a b : List Char),
      splitOnNl (a ++ b) =
        linesInit (splitOnNl a) ++ consHead (linesLast (splitOnNl a)) (splitOnNl b) := by
  intro a
  induction a with
  | nil =>
    intro b
    cases hsp : splitOnNl b with
    | nil => exact absurd hsp (splitOnNl_ne_nil b)
    | cons h0 t0 => simp [splitOnNl, linesInit, linesLast, consHead, hsp]
  | cons c cs ih =>
    intro b
    by_cases hc : c = '\n'
    · subst hc
      have h1 : splitOnNl (('\n' :: cs) ++ b) = [] :: splitOnNl (cs ++ b) := by
        simp [splitOnNl]
      have h2 : splitOnNl ('\n' :: cs) = [] :: splitOnNl cs := by
        simp [splitOnNl]
      rw [h1, h2, ih b]
      cases hsp : splitOnNl cs with
      | nil => exact absurd hsp (splitOnNl_ne_nil cs)
      | cons h0 t0 => simp [linesInit, linesLast]
    · cases hab : splitOnNl (cs ++ b) with
      | nil => exact absurd hab (splitOnNl_ne_nil (cs ++ b))
      | cons ha ta =>
        have h1 : splitOnNl ((c :: cs) ++ b) = (c :: ha) :: ta := by
          simp only [List.cons_append, splitOnNl, hc, if_false, List.append_eq]
          rw [hab]
        cases hsp : splitOnNl cs with
        | nil => exact absurd hsp (splitOnNl_ne_nil cs)
        | cons h0 t0 =>
          have h2 : splitOnNl (c :: cs) = (c :: h0) :: t0 := by
            simp only [splitOnNl, hc, if_false]
            rw [hsp]
          rw [ih b, hsp] at hab
          rw [h1, h2]
          cases t0 with
          | nil =>
            cases hspb : splitOnNl b with
            | nil => exact absurd hspb (splitOnNl_ne_nil b)
            | cons hb tb =>
              rw [hspb] at hab
              simp only [linesInit, linesLast, consHead, List.nil_append,
                List.cons.injEq] at hab
              simp only [linesInit, linesLast, consHead, List.nil_append,
                List.cons.injEq]
              exact ⟨by rw [← hab.1]; simp, hab.2.symm⟩
          | cons t1 ts =>
            simp only [linesInit, linesLast, List.cons_append,
              List.cons.injEq] at hab
            simp only [linesInit, linesLast, List.cons_append, List.cons.injEq]
            simp [hab.1, ← hab.2]

theorem mem_linesInit_or_last :
    ∀ (ls : List (List Char)) (l : List Char), l ∈ ls →
      l ∈ linesInit ls ∨ l = linesLast ls := by
  intro ls
  induction ls with
  | nil => intro l hl; exact absurd hl (List.not_mem_nil l)
  | cons x xs ih =>
    intro l hl
    cases xs with
    | nil =>
      rcases List.mem_cons.mp hl with rfl | h0
      · exact Or.inr rfl
      · exact absurd h0 (List.not_mem_nil l)
    | cons y ys =>
      rcases List.mem_cons.mp hl with rfl | h0
      · exact Or.inl (by simp [linesInit])
      · rcases ih l h0 with h | h
        · exact Or.inl (by simp [linesInit, h])
        · exact Or.inr (by simp [linesLast, h])

/-! ## Whitespace decomposition of `trimLeft` / `trimRight` / `pyStrip` -/

theorem stripOrphan_prefix {eq : Char → Char → Bool} (t s : List Char) :
    stripOrphan eq t s <+: s := by
  unfold stripOrphan
  cases findIdxBy eq t s with
  | none => exact List.prefix_refl _
  | some i => exact List.take_prefix i s

theorem linesLast_mem : ∀ (ls : List (List Char)), ls ≠ [] → linesLast ls ∈ ls := by
  intro ls
  induction ls with
  | nil => intro h; exact absurd rfl h
  | cons x xs ih =>
    intro _
    cases xs with
    | nil => simp [linesLast]
    | cons y ys =>
      simp only [linesLast]
      exact List.mem_cons_of_mem x (ih (by simp))

theorem trimRight_cons_of_ne_nil {c : Char} {cs : List Char}
    (h : trimRight cs ≠ []) : trimRight (c :: cs) = c :: trimRight cs := by
  cases hh : trimRight cs with
  | nil => exact absurd hh h
  | cons r rs => simp [trimRight, hh]

theorem trimLeft_decomp (s : List Char) :
    ∃ w, s = w ++ trimLeft s ∧ ∀ c ∈ w, isPyWs c = true := by
  refine ⟨s.takeWhile isPyWs, ?_, fun c hc => List.mem_takeWhile_imp hc⟩
  exact (List.takeWhile_append_dropWhile isPyWs s).symm

theorem trimRight_decomp : ∀ s : List Char,
    ∃ w, s = trimRight s ++ w ∧ ∀ c ∈ w, isPyWs c = true := by
  intro s
  induction s with
  | nil => exact ⟨[], rfl, by simp⟩
  | cons c cs ih =>
    obtain ⟨w, hw, hws⟩ := ih
    cases h : trimRight cs with
    | nil =>
      rw [h, List.nil_append] at hw
      by_cases hc : isPyWs c = true
      · refine ⟨c :: w, ?_, ?_⟩
        · have ht : trimRight (c :: cs) = [] := by simp [trimRight, h, hc]
          rw [ht, List.nil_append, hw]
        · intro x hx
          rcases List.mem_cons.mp hx with rfl | hx
          · exact hc
          · exact hws x hx
      · simp only [Bool.not_eq_true] at hc
        refine ⟨w, ?_, hws⟩
        have ht : trimRight (c :: cs) = [c] := by simp [trimRight, h, hc]
        rw [ht, hw]
        rfl
    | cons r rs =>
      refine ⟨w, ?_, hws⟩
      have ht : trimRight (c :: cs) = c :: trimRight cs := by
        simp only [trimRight, h]
      rw [ht, List.cons_append, ← hw]

theorem trimRight_eq_nil_of_ws : ∀ (w : List Char), (∀ c ∈ w, isPyWs c = true) →
    trimRight w = [] := by
  intro w
  induction w with
  | nil => intro _; rfl
  | cons c cs ih =>
    intro h
    have hcs : trimRight cs = [] := ih (fun x hx => h x (List.mem_cons_of_mem c hx))
    simp [trimRight, hcs, h c (List.mem_cons_self c cs)]

theorem trimRight_append_ws {w : List Char} (hws : ∀ c ∈ w, isPyWs c = true) :
    ∀ (s : List Char), trimRight (s ++ w) = trimRight s := by
  intro s
  induction s with
  | nil => simpa using trimRight_eq_nil_of_ws w hws
  | cons c cs ih =>
    simp only [List.cons_append, trimRight, List.append_eq, ih]

theorem trimLeft_ws_append : ∀ {w : List Char}, (∀ c ∈ w, isPyWs c = true) →
    ∀ (s : List Char), trimLeft (w ++ s) = trimLeft s := by
  intro w
  induction w with
  | nil => intro _ s; rfl
  | cons c cs ih =>
    intro h s
    have hc : isPyWs c = true := h c (List.mem_cons_self c cs)
    simp only [List.cons_append, trimLeft, List.dropWhile_cons, hc, if_true]
    exact ih (fun x hx => h x (List.mem_cons_of_mem c hx)) s

theorem trimLeft_idem : ∀ s : List Char, trimLeft (trimLeft s) = trimLeft s := by
  intro s
  induction s with
  | nil => rfl
  | cons c cs ih =>
    by_cases hc : isPyWs c = true
    · simpa [trimLeft, List.dropWhile_cons, hc] using ih
    · simp only [Bool.not_eq_true] at hc
      simp [trimLeft, List.dropWhile_cons, hc]

theorem trimRight_idem : ∀ s : List Char, trimRight (trimRight s) = trimRight s := by
  intro s
  induction s with
  | nil => rfl
  | cons c cs ih =>
    cases h : trimRight cs with
    | nil =>
      by_cases hc : isPyWs c = true
      · simp [trimRight, h, hc]
      · simp only [Bool.not_eq_true] at hc
        have h2 : trimRight (c :: cs) = [c] := by simp [trimRight, h, hc]
        rw [h2]
        simp [trimRight, hc]
    | cons r rs =>
      have h2 : trimRight (c :: cs) = c :: r :: rs := by simp [trimRight, h]
      rw [h2]
      have h3 : trimRight (r :: rs) = r :: rs := by rw [← h]; exact ih
      rw [trimRight_cons_of_ne_nil (by simp [h3]), h3]

theorem trimRight_trimLeft_comm : ∀ s : List Char,
    trimRight (trimLeft s) = trimLeft (trimRight s) := by
  intro s
  induction s with
  | nil => rfl
  | cons c cs ih =>
    by_cases hc : isPyWs c = true
    · have h1 : trimLeft (c :: cs) = trimLeft cs := by
        simp [trimLeft, List.dropWhile_cons, hc]
      rw [h1, ih]
      cases h : trimRight cs with
      | nil => simp [trimRight, h, hc]
      | cons r rs =>
        have h2 : trimRight (c :: cs) = c :: r :: rs := by simp [trimRight, h]
        rw [h2]
        simp [trimLeft, List.dropWhile_cons, hc]
    · simp only [Bool.not_eq_true] at hc
      have h1 : trimLeft (c :: cs) = c :: cs := by
        simp [trimLeft, List.dropWhile_cons, hc]
      rw [h1]
      cases h : trimRight cs with
      | nil =>
        have h2 : trimRight (c :: cs) = [c] := by simp [trimRight, h, hc]
        rw [h2]
        simp [trimLeft, List.dropWhile_cons, hc]
      | cons r rs =>
        have h2 : trimRight (c :: cs) = c :: r :: rs := by simp [trimRight, h]
        rw [h2]
        simp [trimLeft, List.dropWhile_cons, hc]

theorem pyStrip_idem (s : List Char) : pyStrip (pyStrip s) = pyStrip s := by
  unfold pyStrip
  rw [trimRight_trimLeft_comm, trimLeft_idem, trimRight_idem]

theorem pyStrip_append_ws {s w : List Char} (hws : ∀ c ∈ w, isPyWs c = true) :
    pyStrip (s ++ w) = pyStrip s := by
  unfold pyStrip
  rw [trimRight_append_ws hws]

theorem pyStrip_ws_append {w s : List Char} (hws : ∀ c ∈ w, isPyWs c = true) :
    pyStrip (w ++ s) = pyStrip s := by
  unfold pyStrip
  rw [← trimRight_trimLeft_comm, trimLeft_ws_append hws, trimRight_trimLeft_comm]

/-! ## Lines of a stripped text come from lines of the original text -/

theorem trimLeft_lines_surj (s : List Char) :
    ∀ l' ∈ splitOnNl (trimLeft s), ∃ l ∈ splitOnNl s, pyStrip l' = pyStrip l := by
  obtain ⟨w, hw, hws⟩ := trimLeft_decomp s
  intro l' hl'
  have hsplit : splitOnNl s =
      linesInit (splitOnNl w) ++
        consHead (linesLast (splitOnNl w)) (splitOnNl (trimLeft s)) := by
    conv_lhs => rw [hw]
    exact splitOnNl_append w (trimLeft s)
  have hlast_ws : ∀ c ∈ linesLast (splitOnNl w), isPyWs c = true := by
    intro c hc
    have hmem : linesLast (splitOnNl w) ∈ splitOnNl w :=
      linesLast_mem _ (splitOnNl_ne_nil w)
    exact hws c (( mem_splitOnNl_infix hmem).subset hc)
  cases hst : splitOnNl (trimLeft s) with
  | nil => exact absurd hst (splitOnNl_ne_nil _)
  | cons h t =>
    rw [hst] at hl'
    rcases List.mem_cons.mp hl' with rfl | hmem_t
    · refine ⟨linesLast (splitOnNl w) ++ l', ?_, (pyStrip_ws_append hlast_ws).symm⟩
      rw [hsplit, hst]
      simp [consHead]
    · refine ⟨l', ?_, rfl⟩
      rw [hsplit, hst]
      simp [consHead, hmem_t]

theorem trimRight_lines_surj (s : List Char) :
    ∀ l' ∈ splitOnNl (trimRight s), ∃ l ∈ splitOnNl s, pyStrip l' = pyStrip l := by
  obtain ⟨w, hw, hws⟩ := trimRight_decomp s
  intro l' hl'
  have hsplit : splitOnNl s =
      linesInit (splitOnNl (trimRight s)) ++
        consHead (linesLast (splitOnNl (trimRight s))) (splitOnNl w) := by
    conv_lhs => rw [hw]
    exact splitOnNl_append (trimRight s) w
  cases hsw : splitOnNl w with
  | nil => exact absurd hsw (splitOnNl_ne_nil _)
  | cons hb tb =>
    have hb_ws : ∀ c ∈ hb, isPyWs c = true := by
      intro c hc
      have hmem : hb ∈ splitOnNl w := by rw [hsw]; exact List.mem_cons_self _ _
      exact hws c (( mem_splitOnNl_infix hmem).subset hc)
    rcases mem_linesInit_or_last _ _ hl' with hinit | hlast
    · exact ⟨l', by rw [hsplit]; exact List.mem_append_left _ hinit, rfl⟩
    · refine ⟨l' ++ hb, ?_, (pyStrip_append_ws hb_ws).symm⟩
      rw [hsplit, hsw, hlast]
      simp [consHead]

theorem pyStrip_lines_surj (s : List Char) :
    ∀ l' ∈ splitOnNl (pyStrip s), ∃ l ∈ splitOnNl s, pyStrip l' = pyStrip l := by
  intro l' hl'
  obtain ⟨l1, hl1, he1⟩ := trimLeft_lines_surj (trimRight s) l' hl'
  obtain ⟨l, hl, he2⟩ := trimRight_lines_surj s l1 hl1
  exact ⟨l, hl, he1.trans he2⟩

/-! ## A tag pattern never matches across a newline -/

theorem isPrefixBy_append_nl_false {eq : Char → Char → Bool} :
    ∀ {t : List Char}, (∀ c ∈ t, eq c '\n' = false) →
      ∀ {a b : List Char}, isPrefixBy eq t a = false →
        isPrefixBy eq t (a ++ '\n' :: b) = false := by
  intro t
  induction t with
  | nil => intro _ a b h; simp [isPrefixBy] at h
  | cons th tt ih =>
    intro hnl a b h
    cases a with
    | nil =>
      simp [isPrefixBy, hnl th (List.mem_cons_self _ _)]
    | cons c a' =>
      cases hec : eq th c with
      | false => simp [isPrefixBy, hec]
      | true =>
        have h' : isPrefixBy eq tt a' = false := by
          simpa [isPrefixBy, hec] using h
        simp only [List.cons_append, isPrefixBy, hec, Bool.true_and]
        exact ih (fun x hx => hnl x (List.mem_cons_of_mem th hx)) h'

theorem not_contains_append_nl {eq : Char → Char → Bool} {t : List Char}
    (hnl : ∀ c ∈ t, eq c '\n' = false) (htne : t ≠ []) :
    ∀ {a b : List Char}, containsBy eq t a = false → containsBy eq t b = false →
      containsBy eq t (a ++ '\n' :: b) = false := by
  intro a
  induction a with
  | nil =>
    intro b _ hb
    simp only [List.nil_append, containsBy, Bool.or_eq_false_iff]
    refine ⟨?_, hb⟩
    cases t with
    | nil => exact absurd rfl htne
    | cons th tt => simp [isPrefixBy, hnl th (List.mem_cons_self _ _)]
  | cons c a' ih =>
    intro b ha hb
    simp only [containsBy, Bool.or_eq_false_iff] at ha
    simp only [List.cons_append, containsBy, Bool.or_eq_false_iff]
    refine ⟨?_, ih ha.2 hb⟩
    have := isPrefixBy_append_nl_false hnl (a := c :: a') (b := b) ha.1
    simpa using this

theorem not_contains_joinNl {eq : Char → Char → Bool} {t : List Char}
    (hnl : ∀ c ∈ t, eq c '\n' = false) (htne : t ≠ []) :
    ∀ (ls : List (List Char)), (∀ l ∈ ls, containsBy eq t l = false) →
      containsBy eq t (joinNl ls) = false := by
  intro ls
  induction ls with
  | nil =>
    intro _
    cases t with
    | nil => exact absurd rfl htne
    | cons th tt => simp [joinNl, containsBy, isPrefixBy]
  | cons l ls ih =>
    intro h
    cases ls with
    | nil => exact h l (List.mem_cons_self _ _)
    | cons l1 ls1 =>
      have hj : joinNl (l :: l1 :: ls1) = l ++ '\n' :: joinNl (l1 :: ls1) := rfl
      rw [hj]
      exact not_contains_append_nl hnl htne (h l (by simp))
        (ih (fun x hx => h x (List.mem_cons_of_mem l hx)))

/-! ## The sanitizer pipeline, unfolded -/

theorem sanitize_guard {s : List Char} (h : s = [] ∨ pyStrip s = []) :
    sanitize_response_for_user s = s := by
  rcases h with h | h
  · rw [h]
    rfl
  · by_cases hs : s = []
    · rw [hs]
      rfl
    · simp [sanitize_response_for_user, hs, h]

theorem sanitize_eq_core {s : List Char} (h1 : s ≠ []) (h2 : pyStrip s ≠ []) :
    sanitize_response_for_user s =
      pyStrip (joinNl ((splitOnNl
        (stripOrphan ciEq storePreferenceOpen
          (stripOrphan ciEq storePersonalOpen
            (stripOrphan ciEq sessionOpen
              (stripClosedAll ciEq storePreferenceOpen storePreferenceClose
                (stripClosedAll ciEq storePersonalOpen storePersonalClose
                  (stripClosedAll ciEq sessionOpen sessionClose s))))))).filter
        (fun l => !(tagOnlyLine (pyStrip l))))) := by
  simp only [sanitize_response_for_user, if_neg h1, if_neg h2]

theorem sanitize_fix_of_clean {kept : List (List Char)}
    (hnl : ∀ l ∈ kept, '\n' ∉ l)
    (hsess : ∀ l ∈ kept, containsBy ciEq sessionOpen l = false)
    (hpers : ∀ l ∈ kept, containsBy ciEq storePersonalOpen l = false)
    (hpref : ∀ l ∈ kept, containsBy ciEq storePreferenceOpen l = false)
    (htag : ∀ l ∈ kept, tagOnlyLine (pyStrip l) = false) :
    sanitize_response_for_user (pyStrip (joinNl kept)) = pyStrip (joinNl kept) := by
  set out := pyStrip (joinNl kept) with hout
  by_cases ho1 : out = []
  · exact sanitize_guard (Or.inl ho1)
  · by_cases ho2 : pyStrip out = []
    · exact sanitize_guard (Or.inr ho2)
    · have hkept_ne : kept ≠ [] := by
        intro hk
        apply ho1
        rw [hout, hk]
        rfl
      have hjs : containsBy ciEq sessionOpen (joinNl kept) = false :=
        not_contains_joinNl (by decide) (by decide) kept hsess
      have hjp : containsBy ciEq storePersonalOpen (joinNl kept) = false :=
        not_contains_joinNl (by decide) (by decide) kept hpers
      have hjf : containsBy ciEq storePreferenceOpen (joinNl kept) = false :=
        not_contains_joinNl (by decide) (by decide) kept hpref
      have hos : containsBy ciEq sessionOpen out = false := by
        rw [hout]; exact not_contains_pyStrip hjs
      have hop : containsBy ciEq storePersonalOpen out = false := by
        rw [hout]; exact not_contains_pyStrip hjp
      have hof : containsBy ciEq storePreferenceOpen out = false := by
        rw [hout]; exact not_contains_pyStrip hjf
      have e1 : stripClosedAll ciEq sessionOpen sessionClose out = out :=
        stripClosedAll_id (by decide) hos
      have e2 : stripClosedAll ciEq storePersonalOpen storePersonalClose out = out :=
        stripClosedAll_id (by decide) hop
      have e3 : stripClosedAll ciEq storePreferenceOpen storePreferenceClose out = out :=
        stripClosedAll_id (by decide) hof
      have e4 : stripOrphan ciEq sessionOpen out = out := stripOrphan_id hos
      have e5 : stripOrphan ciEq storePersonalOpen out = out := stripOrphan_id hop
      have e6 : stripOrphan ciEq storePreferenceOpen out = out := stripOrphan_id hof
      rw [sanitize_eq_core ho1 ho2, e1, e2, e3, e4, e5, e6]
      have hsplit_join : splitOnNl (joinNl kept) = kept :=
        splitOnNl_joinNl kept hkept_ne hnl
      have hfilter : ∀ l' ∈ splitOnNl out, (!(tagOnlyLine (pyStrip l'))) = true := by
        intro l' hl'
        have hl'' : l' ∈ splitOnNl (pyStrip (joinNl kept)) := by
          rw [← hout]; exact hl'
        obtain ⟨l1, hl1, he⟩ := pyStrip_lines_surj (joinNl kept) l' hl''
        rw [hsplit_join] at hl1
        rw [he, htag l1 hl1]
        rfl
      rw [List.filter_eq_self.mpr hfilter, joinNl_splitOnNl out, hout, pyStrip_idem]

/-- C3: the user-facing sanitizer `_sanitize_response_for_user` is
idempotent — for every text, sanitizing twice yields the same result as
sanitizing once. -/
theorem sanitize_response_idempotent (s : List Char) :
    sanitize_response_for_user (sanitize_response_for_user s) =
      sanitize_response_for_user s := by
  by_cases h1 : s = []
  · have hg := sanitize_guard (Or.inl h1)
    rw [hg]
    exact hg
  · by_cases h2 : pyStrip s = []
    · have hg := sanitize_guard (Or.inr h2)
      rw [hg]
      exact hg
    · rw [sanitize_eq_core h1 h2]
      apply sanitize_fix_of_clean
      · intro l hl
        exact lines_no_nl _ l (List.mem_of_mem_filter hl)
      · intro l hl
        refine not_containsBy_infix ?_ ( mem_splitOnNl_infix (List.mem_of_mem_filter hl))
        refine not_containsBy_infix ?_ ( stripOrphan_prefix _ _).isInfix
        refine not_containsBy_infix ?_ ( stripOrphan_prefix _ _).isInfix
        exact stripOrphan_not_contains (by decide) _
      · intro l hl
        refine not_containsBy_infix ?_ ( mem_splitOnNl_infix (List.mem_of_mem_filter hl))
        refine not_containsBy_infix ?_ ( stripOrphan_prefix _ _).isInfix
        exact stripOrphan_not_contains (by decide) _
      · intro l hl
        refine not_containsBy_infix ?_ ( mem_splitOnNl_infix (List.mem_of_mem_filter hl))
        exact stripOrphan_not_contains (by decide) _
      · intro l hl
        have := (List.mem_filter.mp hl).2
        simpa using this

end NftChatbot
